import Mathlib

/-!
A shallow embedding of the Beat Marker Pro audio-analysis engine
(`client/js/audio-analyzer.js`) together with proofs about it.

Modelling conventions:
* JavaScript numbers are modelled as rationals (the real-number reading of
  the float arithmetic).
* The transcendental pieces of the pipeline — the Hann window, the radix-2
  FFT and the magnitude extraction inside `_computeSTFT`/`_fft`, and
  `Math.sqrt` inside `_computeBandFlux`, `_computeVocalFlux` and
  `_computeSpectralBroadness` — cannot be expressed exactly over ℚ.  They
  are abstracted as explicit function parameters (`fm` for the composite
  windowed-FFT-magnitude map applied to a raw 2048-sample slice, `sq` for
  the square root).  Every theorem below quantifies over these parameters,
  or over exactly the properties of them it needs (such as
  `∀ q, 0 ≤ sq q`), so each theorem holds in particular for the real
  transforms.
* `Array`/`Float32Array` reads are total in JS (out-of-range reads give
  `undefined`); wherever the source can only read in range we use
  `List.getD _ 0`, and the few comparisons the source makes against a
  possibly-`undefined` value (which are `false` in JS) are modelled by
  explicit bound checks, noted at the definition.
* The cooperative cancellation token is modelled by a function
  `flag : ℕ → Bool` giving the value read by the n-th poll of
  `cancelToken.cancelled` (polls are numbered in execution order).
-/

namespace BeatMarker

/-- The fixed FFT size (`this.fftSize = 2048`, set in the constructor and
never reassigned). -/
def fftSize : ℕ := 2048

/-- The fixed hop size (`this.hopSize = 512`, set in the constructor and
never reassigned). -/
def hopSize : ℕ := 512

/-- JavaScript `Math.round`: round half towards positive infinity,
`Math.round x = ⌊x + 0.5⌋`. -/
def jsRound (q : ℚ) : ℤ := ⌊q + 1/2⌋

/-- Names of the six fixed frequency bands of `this.bands`, in the object's
insertion order (which is the iteration order of `Object.entries`). -/
inductive BandName
  | subBass | bass | lowMid | highMid | presence | brilliance
deriving DecidableEq, Fintype

/-- The lower edge in Hz of each band (`this.bands[name].low`). -/
def bandLowFreq : BandName → ℚ
  | .subBass => 20
  | .bass => 80
  | .lowMid => 300
  | .highMid => 2000
  | .presence => 6000
  | .brilliance => 12000

/-- The upper edge in Hz of each band (`this.bands[name].high`). -/
def bandHighFreq : BandName → ℚ
  | .subBass => 80
  | .bass => 300
  | .lowMid => 2000
  | .highMid => 6000
  | .presence => 12000
  | .brilliance => 20000

/-- The iteration order of the band table. -/
def bandOrder : List BandName :=
  [.subBass, .bass, .lowMid, .highMid, .presence, .brilliance]

/-- `_binForFreq`: `Math.round(freq * fftSize / sampleRate)` (the result is
nonnegative for the frequencies and sample rates in use, so `Int.toNat` is
faithful). -/
def binForFreq (sr : ℕ) (freq : ℚ) : ℕ :=
  (jsRound (freq * (fftSize : ℚ) / (sr : ℚ))).toNat

/-- The low bin of a band as computed in `_extractBandEnergies` and
`_computeBandFlux`. -/
def bandLowBin (sr : ℕ) (b : BandName) : ℕ := binForFreq sr (bandLowFreq b)

/-- The high bin of a band: `Math.min(this._binForFreq(range.high),
this.fftSize / 2 - 1)`. -/
def bandHighBin (sr : ℕ) (b : BandName) : ℕ :=
  min (binForFreq sr (bandHighFreq b)) (fftSize / 2 - 1)

/-- Sum of `f b` for `b` running from `lo` to `hi` inclusive (the JS loop
`for (let b = lo; b <= hi; b++)`; empty when `lo > hi`). -/
def binSum (lo hi : ℕ) (f : ℕ → ℚ) : ℚ :=
  ((List.range' lo (hi + 1 - lo)).map f).sum

/-- Sum of `f b` for `b` from `lo` while `b ≤ hi && b < len` (the
length-guarded loops of `_computeCentroidFlux` and `_computeVocalFlux`). -/
def binSumBounded (lo hiSucc : ℕ) (f : ℕ → ℚ) : ℚ :=
  ((List.range' lo (hiSucc - lo)).map f).sum

/-- One frame's band energy in `_extractBandEnergies`: mean squared
magnitude over the bin range.  When clamping makes `lowBin > highBin`
(possible at low sample rates) the JS sum is 0 and `0 / numBins` is `-0`;
here the empty sum divided by the nonpositive count is likewise 0. -/
def bandEnergyFrame (lowBin highBin : ℕ) (frame : List ℚ) : ℚ :=
  binSum lowBin highBin (fun b => frame.getD b 0 * frame.getD b 0) /
    ((highBin : ℚ) - (lowBin : ℚ) + 1)

/-- The per-band series container produced by `_extractBandEnergies` and
`_computeBandFlux` (a JS object keyed by band name). -/
structure BandMap where
  subBass : List ℚ
  bass : List ℚ
  lowMid : List ℚ
  highMid : List ℚ
  presence : List ℚ
  brilliance : List ℚ

/-- Lookup `bandData[bandName]`. -/
def BandMap.get (m : BandMap) : BandName → List ℚ
  | .subBass => m.subBass
  | .bass => m.bass
  | .lowMid => m.lowMid
  | .highMid => m.highMid
  | .presence => m.presence
  | .brilliance => m.brilliance

/-- Build a `BandMap` from a function on band names. -/
def BandMap.ofFun (f : BandName → List ℚ) : BandMap :=
  ⟨f .subBass, f .bass, f .lowMid, f .highMid, f .presence, f .brilliance⟩

/-- `_extractBandEnergies`. -/
def extractBandEnergies (sr : ℕ) (spec : List (List ℚ)) : BandMap :=
  BandMap.ofFun fun b =>
    spec.map (bandEnergyFrame (bandLowBin sr b) (bandHighBin sr b))

/-- One frame of half-wave rectified spectral flux over a bin range, before
the square root (`_computeBandFlux` inner loop). -/
def fluxSumFrame (lowBin highBin : ℕ) (prev cur : List ℚ) : ℚ :=
  binSum lowBin highBin fun b =>
    let d := cur.getD b 0 - prev.getD b 0
    if 0 < d then d * d else 0

/-- `_computeBandFlux` for a single band: `flux[0] = 0` (the
`Float32Array` is zero-initialised and the loop starts at `i = 1`), and
`flux[i] = sqrt(Σ max(0, diff)²)` after. -/
def fluxSeries (sq : ℚ → ℚ) (lowBin highBin : ℕ) (spec : List (List ℚ)) :
    List ℚ :=
  (List.range spec.length).map fun i =>
    if i = 0 then 0
    else sq (fluxSumFrame lowBin highBin (spec.getD (i - 1) []) (spec.getD i []))

/-- `_computeBandFlux`. -/
def computeBandFlux (sr : ℕ) (sq : ℚ → ℚ) (spec : List (List ℚ)) : BandMap :=
  BandMap.ofFun fun b =>
    fluxSeries sq (bandLowBin sr b) (bandHighBin sr b) spec

/-- `_computeHFC` for one frame: `Σ frame[b]² · (b+1) / frame.length`.
There is no normalisation of the result. -/
def hfcFrame (frame : List ℚ) : ℚ :=
  ((List.range frame.length).map fun b =>
    frame.getD b 0 * frame.getD b 0 * ((b : ℚ) + 1)).sum / (frame.length : ℚ)

/-- `_computeHFC`. -/
def computeHFC (spec : List (List ℚ)) : List ℚ := spec.map hfcFrame

/-- `_computeSpectralBroadness` for one frame: zero total energy gives 0;
otherwise the energy-weighted spread around the centroid, square-rooted,
divided by `frame.length * 0.3` and clamped to 1 from above. -/
def broadnessFrame (sq : ℚ → ℚ) (frame : List ℚ) : ℚ :=
  let totalEnergy :=
    ((List.range frame.length).map fun b => frame.getD b 0 * frame.getD b 0).sum
  if totalEnergy = 0 then 0
  else
    let centroid :=
      ((List.range frame.length).map fun b =>
        frame.getD b 0 * frame.getD b 0 * (b : ℚ)).sum / totalEnergy
    let spread :=
      ((List.range frame.length).map fun b =>
        frame.getD b 0 * frame.getD b 0 * ((b : ℚ) - centroid) *
          ((b : ℚ) - centroid)).sum
    min 1 (sq (spread / totalEnergy) / ((frame.length : ℚ) * (3/10)))

/-- `_computeSpectralBroadness`. -/
def computeSpectralBroadness (sq : ℚ → ℚ) (spec : List (List ℚ)) : List ℚ :=
  spec.map (broadnessFrame sq)

/-- The shared final step of `_computeCentroidFlux` and `_computeVocalFlux`:
`maxFlux = Math.max(...flux) || 1` followed by dividing every entry by
`maxFlux`.  On the empty list the division loop is empty, so the list is
returned unchanged. -/
def normalizeByMax (l : List ℚ) : List ℚ :=
  match l.max? with
  | none => l
  | some m =>
    let d := if m = 0 then 1 else m
    l.map fun x => x / d

/-- The restricted-range spectral centroid of one frame in
`_computeCentroidFlux` (loop bound `b <= highBin && b < frame.length`). -/
def centroidRangeFrame (lowBin highBin : ℕ) (frame : List ℚ) : ℚ :=
  let hiSucc := min (highBin + 1) frame.length
  let totalEnergy := binSumBounded lowBin hiSucc fun b =>
    frame.getD b 0 * frame.getD b 0
  let c := binSumBounded lowBin hiSucc fun b =>
    frame.getD b 0 * frame.getD b 0 * (b : ℚ)
  if 0 < totalEnergy then c / totalEnergy else 0

/-- `_computeCentroidFlux`: 300–6000 Hz centroids, absolute frame-to-frame
difference, then global max-normalisation. -/
def computeCentroidFlux (sr : ℕ) (spec : List (List ℚ)) : List ℚ :=
  let lowBin := binForFreq sr 300
  let highBin := binForFreq sr 6000
  let centroids := spec.map (centroidRangeFrame lowBin highBin)
  let flux := (List.range centroids.length).map fun i =>
    if i = 0 then 0 else |centroids.getD i 0 - centroids.getD (i - 1) 0|
  normalizeByMax flux

/-- `_computeVocalFlux`: half-wave rectified flux restricted to the
300–4000 Hz bins (loop bound `b <= highBin && b < spectrogram[i].length`),
then global max-normalisation. -/
def computeVocalFlux (sr : ℕ) (sq : ℚ → ℚ) (spec : List (List ℚ)) : List ℚ :=
  let lowBin := binForFreq sr 300
  let highBin := binForFreq sr 4000
  let flux := (List.range spec.length).map fun i =>
    if i = 0 then 0
    else
      let cur := spec.getD i []
      let prev := spec.getD (i - 1) []
      sq (binSumBounded lowBin (min (highBin + 1) cur.length) fun b =>
        let d := cur.getD b 0 - prev.getD b 0
        if 0 < d then d * d else 0)
  normalizeByMax flux

/-- The normalisation block of `_combineBands` (lines 530–539): compute
the running maximum `max` starting from 0, and divide every entry by it
only when it is positive (an all-zero signal is returned unchanged). -/
def maxNormalize (combined : List ℚ) : List ℚ :=
  let m := combined.foldl max 0
  if 0 < m then combined.map (fun x => x / m) else combined

/-- `_combineBands`: weighted sum of the named series (output length taken
from the first named series), then max-normalisation. -/
def combineBands (bandData : BandMap) (names : List BandName)
    (weights : List ℚ) : List ℚ :=
  let len := match names with
    | [] => 0
    | n :: _ => (bandData.get n).length
  maxNormalize ((List.range len).map fun j =>
    ((names.zip weights).map fun p => (bandData.get p.1).getD j 0 * p.2).sum)

/-- `minGapFrames = Math.floor(minInterval * this.sampleRate / this.hopSize)`
in `_detectOnsets`.  For a negative `minInterval` the JS value is negative
and the gap test `i - last >= minGapFrames` is then always true, exactly as
with the truncated value 0 here (`i > last` always holds), so `Int.toNat`
is behaviour-preserving. -/
def minGapFrames (sr : ℕ) (minInterval : ℚ) : ℕ :=
  (⌊minInterval * (sr : ℚ) / (hopSize : ℚ)⌋).toNat

/-- The threshold multiplier of `_detectOnsets`:
`1.0 + (1.0 - sensitivity) * 3.0`. -/
def thresholdMult (sensitivity : ℚ) : ℚ := 1 + (1 - sensitivity) * 3

/-- The onset detection function shared by `_detectOnsets` and
`_estimateBPM`: a zero-initialised array of the signal's length whose entry
`i ≥ 1` is the half-wave rectified first difference. -/
def odfOf (signal : List ℚ) : List ℚ :=
  (List.range signal.length).map fun i =>
    if i = 0 then 0
    else
      let d := signal.getD i 0 - signal.getD (i - 1) 0
      if 0 < d then d else 0

/-- The local mean of the ODF over `[i - w, i + w]` in `_detectOnsets`,
divided by `2w + 1`. -/
def localMeanAt (odf : List ℚ) (w i : ℕ) : ℚ :=
  binSum (i - w) (i + w) (fun j => odf.getD j 0) / (2 * (w : ℚ) + 1)

/-- The candidate test of `_detectOnsets`: above the adaptive threshold and
a local maximum.  The conjuncts `1 ≤ i` and `i + 1 < odf.length` encode the
JS comparisons `odf[i] >= odf[i-1]` / `odf[i] >= odf[i+1]` being false when
the neighbour read is `undefined`; inside the detection loop with
`adaptiveWindow ≥ 1` both bounds hold automatically. -/
def isCand (odf : List ℚ) (mult : ℚ) (w i : ℕ) : Bool :=
  decide (localMeanAt odf w i * mult + 1/1000 < odf.getD i 0) &&
  (decide (1 ≤ i) && decide (odf.getD (i - 1) 0 ≤ odf.getD i 0)) &&
  (decide (i + 1 < odf.length) && decide (odf.getD (i + 1) 0 ≤ odf.getD i 0))

/-- One iteration of the peak-picking loop of `_detectOnsets` (lines
585–598): a candidate is pushed when the list is empty or the gap from the
most recent onset is at least `minGap`; otherwise it replaces the most
recent onset exactly when its ODF value is strictly larger, and is dropped
otherwise.  The accumulator holds the onset list in reverse (most recent
first). -/
def onsetStep (odf : List ℚ) (minGap : ℕ) (mult : ℚ) (w : ℕ)
    (acc : List ℕ) (i : ℕ) : List ℕ :=
  if isCand odf mult w i then
    match acc with
    | [] => [i]
    | last :: rest =>
      if minGap ≤ i - last then i :: last :: rest
      else if odf.getD last 0 < odf.getD i 0 then i :: rest
      else last :: rest
  else acc

/-- `_detectOnsets`: the loop runs over
`i ∈ [adaptiveWindow, odf.length - adaptiveWindow)`. -/
def detectOnsets (sr : ℕ) (signal : List ℚ) (sensitivity minInterval : ℚ)
    (w : ℕ) : List ℕ :=
  let odf := odfOf signal
  ((List.range' w (odf.length - w - w)).foldl
    (onsetStep odf (minGapFrames sr minInterval) (thresholdMult sensitivity) w)
    []).reverse

/-- `minLag = Math.floor(60 / 200 * this.sampleRate / this.hopSize)` in
`_estimateBPM`. -/
def minLagOf (sr : ℕ) : ℕ :=
  (⌊(60 / 200 : ℚ) * (sr : ℚ) / (hopSize : ℚ)⌋).toNat

/-- `maxLag = Math.floor(60 / 50 * this.sampleRate / this.hopSize)` in
`_estimateBPM`. -/
def maxLagOf (sr : ℕ) : ℕ :=
  (⌊(60 / 50 : ℚ) * (sr : ℚ) / (hopSize : ℚ)⌋).toNat

/-- The autocorrelation value for one lag in `_estimateBPM`: the mean of
`odf[i] * odf[i + lag]` over the `odf.length - lag` valid offsets. -/
def acfAt (odf : List ℚ) (lag : ℕ) : ℚ :=
  ((List.range (odf.length - lag)).map fun i =>
    odf.getD i 0 * odf.getD (i + lag) 0).sum / ((odf.length - lag : ℕ) : ℚ)

/-- One iteration of the best-lag search of `_estimateBPM`: `bestCorr`
starts at `-Infinity`, modelled by `none` (any real correlation compares
greater).  The comparison `corr > bestCorr` is strict, so on ties the
first (smallest) lag wins. -/
def bestLagStep (odf : List ℚ) (s : ℕ × Option ℚ) (lag : ℕ) : ℕ × Option ℚ :=
  let corr := acfAt odf lag
  match s.2 with
  | none => (lag, some corr)
  | some bc => if bc < corr then (lag, some corr) else s

/-- The best-lag search loop of `_estimateBPM`; `bestLag` starts at
`minLag`. -/
def bestLagScan (odf : List ℚ) (init : ℕ) (lags : List ℕ) : ℕ × Option ℚ :=
  lags.foldl (bestLagStep odf) (init, none)

/-- The loop `while (bpm > 200) bpm /= 2` of `_estimateBPM`. -/
def halveWhileGT (b : ℚ) : ℚ :=
  if h : 200 < b then halveWhileGT (b / 2) else b
termination_by (⌈b / 200⌉).toNat
decreasing_by
  have h1 : (1 : ℤ) < ⌈b / 200⌉ := Int.lt_ceil.mpr (by push_cast; linarith)
  have h2 : (2 : ℤ) ≤ ⌈b / 200⌉ := by omega
  have hle : b / 200 ≤ (⌈b / 200⌉ : ℚ) := Int.le_ceil _
  have hstep : ⌈b / 2 / 200⌉ ≤ ⌈b / 200⌉ - 1 := by
    apply Int.ceil_le.mpr
    push_cast
    have : b / 2 / 200 = b / 200 / 2 := by ring
    rw [this]
    have h2q : (2 : ℚ) ≤ (⌈b / 200⌉ : ℚ) := by exact_mod_cast h2
    linarith
  omega

/-- The loop `while (bpm < 60) bpm *= 2` of `_estimateBPM`.  The JS loop
diverges when `bpm ≤ 0`; that state is unreachable from `_estimateBPM`
whenever `minLag ≥ 1` (then `bpm > 0`), and the guard `0 < b` merely makes
the definition total by returning `b` unchanged on the divergent inputs. -/
def doubleWhileLT (b : ℚ) : ℚ :=
  if h : b < 60 then
    if h0 : 0 < b then doubleWhileLT (2 * b) else b
  else b
termination_by (⌈60 / b⌉).toNat
decreasing_by
  have hx : (1 : ℚ) < 60 / b := (one_lt_div h0).mpr h
  have h1 : (1 : ℤ) < ⌈60 / b⌉ := Int.lt_ceil.mpr (by push_cast; linarith)
  have h2 : (2 : ℤ) ≤ ⌈60 / b⌉ := by omega
  have hle : 60 / b ≤ (⌈60 / b⌉ : ℚ) := Int.le_ceil _
  have hstep : ⌈60 / (2 * b)⌉ ≤ ⌈60 / b⌉ - 1 := by
    apply Int.ceil_le.mpr
    push_cast
    have : 60 / (2 * b) = 60 / b / 2 := by
      rw [div_div]
      ring_nf
    rw [this]
    have h2q : (2 : ℚ) ≤ (⌈60 / b⌉ : ℚ) := by exact_mod_cast h2
    linarith
  omega

/-- `_estimateBPM`: ODF, autocorrelation over the lag range
`[minLag, min(maxLag + 1, odf.length))` (the loop condition
`lag <= maxLag && lag < acfLength` with `acfLength = min(maxLag + 1,
odf.length)`), conversion of the best lag to BPM, octave folding, and
rounding to one decimal place. -/
def estimateBPM (sr : ℕ) (energySignal : List ℚ) : ℚ :=
  let odf := odfOf energySignal
  let minLag := minLagOf sr
  let maxLag := maxLagOf sr
  let acfLength := min (maxLag + 1) odf.length
  let bestLag := (bestLagScan odf minLag (List.range' minLag (acfLength - minLag))).1
  let beatIntervalSec := (bestLag : ℚ) * (hopSize : ℚ) / (sr : ℚ)
  let bpm := 60 / beatIntervalSec
  (jsRound (doubleWhileLT (halveWhileGT bpm) * 10) : ℚ) / 10

/-- `_frameToTime`: `frameIndex * this.hopSize / this.sampleRate`. -/
def frameToTime (sr : ℕ) (i : ℕ) : ℚ := (i : ℚ) * (hopSize : ℚ) / (sr : ℚ)

/-- One detected event as built inside `analyze`:
`{ time, frame, strength, type }`. -/
structure OnsetEvent where
  time : ℚ
  frame : ℕ
  strength : ℚ
  etype : String
deriving DecidableEq

/-- The options destructured at the top of `analyze`, with the source's
default values. -/
structure AnalysisOptions where
  detectKick : Bool := true
  detectSnare : Bool := true
  detectHihat : Bool := true
  detectBass : Bool := true
  detectMelody : Bool := true
  detectVocal : Bool := false
  sensitivityKick : ℚ := 1/2
  sensitivitySnare : ℚ := 1/2
  sensitivityHihat : ℚ := 1/2
  sensitivityBass : ℚ := 1/2
  sensitivityMelody : ℚ := 1/2
  sensitivityVocal : ℚ := 1/2
  minIntervalKick : ℚ := 12/100
  minIntervalSnare : ℚ := 8/100
  minIntervalHihat : ℚ := 5/100
  minIntervalBass : ℚ := 15/100
  minIntervalMelody : ℚ := 10/100
  minIntervalVocal : ℚ := 15/100
deriving DecidableEq

/-- The `results` object returned by `analyze`: a per-channel key that is
present (`some`) exactly when the corresponding detector ran, plus the
always-present `bpm`. -/
structure AnalysisResult where
  kick : Option (List OnsetEvent)
  snare : Option (List OnsetEvent)
  hihat : Option (List OnsetEvent)
  bass : Option (List OnsetEvent)
  melody : Option (List OnsetEvent)
  vocal : Option (List OnsetEvent)
  bpm : ℚ
deriving DecidableEq

/-- The input `AudioBuffer`: per-channel sample arrays (all of equal
length in a well-formed buffer) plus the sample rate. -/
structure AudioBuffer where
  channelData : List (List ℚ)
  sampleRate : ℕ
deriving DecidableEq

/-- `_mixToMono`: identity for a one-channel buffer, otherwise the
per-sample average of the first two channels (channel 0 duplicated when
there is no channel 1). -/
def mixToMono (buffer : AudioBuffer) : List ℚ :=
  if buffer.channelData.length = 1 then buffer.channelData.getD 0 []
  else
    let left := buffer.channelData.getD 0 []
    let right := if 1 < buffer.channelData.length then buffer.channelData.getD 1 []
      else left
    (List.range left.length).map fun i =>
      (left.getD i 0 + right.getD i 0) * (1/2)

/-- The raw 2048-sample slice handed to one STFT frame; out-of-range reads
are zero (`samples[start + i] || 0`). -/
def sliceAt (samples : List ℚ) (start : ℕ) : List ℚ :=
  (List.range fftSize).map fun j => samples.getD (start + j) 0

/-- One frame of the spectrogram: the abstracted windowed-FFT-magnitude
map `fm` applied to the slice starting at `frame * hopSize`. -/
def stftFrame (fm : List ℚ → List ℚ) (samples : List ℚ) (frame : ℕ) : List ℚ :=
  fm (sliceAt samples (frame * hopSize))

/-- `numFrames = Math.floor((samples.length - fftSize) / hopSize) + 1` in
`_computeSTFT`; negative (and then yielding zero loop iterations) for
buffers shorter than one FFT frame. -/
def numFramesOf (len : ℕ) : ℤ :=
  ((len : ℤ) - (fftSize : ℤ)).fdiv (hopSize : ℤ) + 1

/-- The frame loop of `_computeSTFT`: every 200th frame polls the
cancellation flag (returning `null` when set) before computing that frame.
The second component is the index of the next unread poll. -/
def stftGo (fm : List ℚ → List ℚ) (samples : List ℚ) (flag : ℕ → Bool) :
    List ℕ → ℕ → List (List ℚ) → Option (List (List ℚ)) × ℕ
  | [], idx, acc => (some acc.reverse, idx)
  | f :: rest, idx, acc =>
    if f % 200 = 0 then
      if flag idx then (none, idx + 1)
      else stftGo fm samples flag rest (idx + 1) (stftFrame fm samples f :: acc)
    else stftGo fm samples flag rest idx (stftFrame fm samples f :: acc)

/-- `_computeSTFT`, threading the poll counter from `idx`. -/
def computeSTFT (fm : List ℚ → List ℚ) (samples : List ℚ) (flag : ℕ → Bool)
    (idx : ℕ) : Option (List (List ℚ)) × ℕ :=
  stftGo fm samples flag (List.range (numFramesOf samples.length).toNat) idx []

/-- The spectrogram `_computeSTFT` produces when no cancellation fires. -/
def stftSpec (fm : List ℚ → List ℚ) (samples : List ℚ) : List (List ℚ) :=
  (List.range (numFramesOf samples.length).toNat).map (stftFrame fm samples)

/-- The kick detection signal:
`_combineBands(bandEnergies, ['subBass', 'bass'], [0.7, 0.3])`. -/
def kickSignal (be : BandMap) : List ℚ :=
  combineBands be [.subBass, .bass] [7/10, 3/10]

/-- The snare detection signal: the low/high-mid energy mixture scaled per
frame by `0.6 + 0.4 * spectralBroadness[i]` (`|| 0` on the broadness read
coincides with `getD _ 0`). -/
def snareSignal (sq : ℚ → ℚ) (spec : List (List ℚ)) (be : BandMap) : List ℚ :=
  let snareEnergy := combineBands be [.lowMid, .highMid] [4/10, 6/10]
  let broadness := computeSpectralBroadness sq spec
  snareEnergy.enum.map fun p => p.2 * (6/10 + 4/10 * broadness.getD p.1 0)

/-- The hi-hat detection signal: presence/brilliance energy mixture times
0.4 plus the (unnormalised) HFC series times 0.6. -/
def hihatSignal (spec : List (List ℚ)) (be : BandMap) : List ℚ :=
  let hihatEnergy := combineBands be [.presence, .brilliance] [5/10, 5/10]
  let hfc := computeHFC spec
  hihatEnergy.enum.map fun p => p.2 * (4/10) + hfc.getD p.1 0 * (6/10)

/-- The bass detection (timing) signal: the flux mixture
`_combineBands(bandFlux, ['subBass', 'bass'], [0.3, 0.7])`. -/
def bassFluxSignal (bf : BandMap) : List ℚ :=
  combineBands bf [.subBass, .bass] [3/10, 7/10]

/-- The bass strength signal: the energy mixture
`_combineBands(bandEnergies, ['subBass', 'bass'], [0.3, 0.7])`, normalised
separately from the flux mixture. -/
def bassEnergySignal (be : BandMap) : List ℚ :=
  combineBands be [.subBass, .bass] [3/10, 7/10]

/-- The melody detection signal: low/high-mid flux mixture times 0.6 plus
the centroid flux series times 0.4. -/
def melodySignal (sr : ℕ) (spec : List (List ℚ)) (bf : BandMap) : List ℚ :=
  let melodyFlux := combineBands bf [.lowMid, .highMid] [5/10, 5/10]
  let centroidFlux := computeCentroidFlux sr spec
  melodyFlux.enum.map fun p => p.2 * (6/10) + centroidFlux.getD p.1 0 * (4/10)

/-- The event records one channel block of `analyze` builds from its onset
list: `{ time: _frameToTime(i), frame: i, strength: strengthSignal[i],
type }`. -/
def mkEvents (sr : ℕ) (ty : String) (strengthSignal : List ℚ)
    (onsets : List ℕ) : List OnsetEvent :=
  onsets.map fun i =>
    { time := frameToTime sr i, frame := i,
      strength := strengthSignal.getD i 0, etype := ty }

/-- `analyze`.  Cancellation polls are numbered in execution order: 0
before the mono mix, 1 before the STFT, then one per 200 STFT frames, one
after the STFT (`!spectrogram || isCancelled()`), one before the band
energies, one before the band flux, and one at the start of each enabled
channel block except vocal — the source's vocal block (lines 216–232) has
no `isCancelled()` check, and neither does the BPM block after it.  The
progress callback has no effect on the result and is not modelled. -/
def analyze (fm : List ℚ → List ℚ) (sq : ℚ → ℚ) (buffer : AudioBuffer)
    (opts : AnalysisOptions) (flag : ℕ → Bool) : Option AnalysisResult :=
  let sr := buffer.sampleRate
  if flag 0 then none else
  let mono := mixToMono buffer
  if flag 1 then none else
  match computeSTFT fm mono flag 2 with
  | (none, _) => none
  | (some spectrogram, i0) =>
    if flag i0 then none else
    if flag (i0 + 1) then none else
    let bandEnergies := extractBandEnergies sr spectrogram
    if flag (i0 + 2) then none else
    let bandFlux := computeBandFlux sr sq spectrogram
    if opts.detectKick && flag (i0 + 3) then none else
    let kickSig := kickSignal bandEnergies
    let kickRes := if opts.detectKick then
        some (mkEvents sr "kick" kickSig
          (detectOnsets sr kickSig opts.sensitivityKick opts.minIntervalKick 15))
      else none
    let i1 := if opts.detectKick then i0 + 4 else i0 + 3
    if opts.detectSnare && flag i1 then none else
    let snareSig := snareSignal sq spectrogram bandEnergies
    let snareRes := if opts.detectSnare then
        some (mkEvents sr "snare" snareSig
          (detectOnsets sr snareSig opts.sensitivitySnare opts.minIntervalSnare 12))
      else none
    let i2 := if opts.detectSnare then i1 + 1 else i1
    if opts.detectHihat && flag i2 then none else
    let hihatSig := hihatSignal spectrogram bandEnergies
    let hihatRes := if opts.detectHihat then
        some (mkEvents sr "hihat" hihatSig
          (detectOnsets sr hihatSig opts.sensitivityHihat opts.minIntervalHihat 8))
      else none
    let i3 := if opts.detectHihat then i2 + 1 else i2
    if opts.detectBass && flag i3 then none else
    let bassRes := if opts.detectBass then
        some (mkEvents sr "bass" (bassEnergySignal bandEnergies)
          (detectOnsets sr (bassFluxSignal bandFlux) opts.sensitivityBass
            opts.minIntervalBass 20))
      else none
    let i4 := if opts.detectBass then i3 + 1 else i3
    if opts.detectMelody && flag i4 then none else
    let melodySig := melodySignal sr spectrogram bandFlux
    let melodyRes := if opts.detectMelody then
        some (mkEvents sr "melody" melodySig
          (detectOnsets sr melodySig opts.sensitivityMelody opts.minIntervalMelody 15))
      else none
    let vocalRes := if opts.detectVocal then
        some (mkEvents sr "vocal" (computeVocalFlux sr sq spectrogram)
          (detectOnsets sr (computeVocalFlux sr sq spectrogram)
            opts.sensitivityVocal opts.minIntervalVocal 18))
      else none
    let bpmVal := estimateBPM sr (combineBands bandEnergies
      [.subBass, .bass, .lowMid, .highMid] [3/10, 2/10, 25/100, 25/100])
    some { kick := kickRes, snare := snareRes, hihat := hihatRes,
           bass := bassRes, melody := melodyRes, vocal := vocalRes,
           bpm := bpmVal }

/-! ### Properties of the onset detector (claims C1 and C2) -/

/-- Reduction of the peak-picking step on an empty accumulator. -/
lemma onsetStep_nil (odf : List ℚ) (minGap w : ℕ) (mult : ℚ) (i : ℕ) :
    onsetStep odf minGap mult w [] i =
      if isCand odf mult w i = true then [i] else [] := rfl

/-- Reduction of the peak-picking step on a nonempty accumulator. -/
lemma onsetStep_cons (odf : List ℚ) (minGap w : ℕ) (mult : ℚ)
    (i last : ℕ) (rest : List ℕ) :
    onsetStep odf minGap mult w (last :: rest) i =
      if isCand odf mult w i = true then
        if minGap ≤ i - last then i :: last :: rest
        else if odf.getD last 0 < odf.getD i 0 then i :: rest
        else last :: rest
      else last :: rest := rfl

/-- Every element the peak-picking step leaves in the accumulator is at
most the index just processed (new entries are exactly `i`). -/
lemma onsetStep_le {odf : List ℚ} {minGap w : ℕ} {mult : ℚ} {i : ℕ}
    {acc : List ℕ} (hb : ∀ a ∈ acc, a < i) :
    ∀ a ∈ onsetStep odf minGap mult w acc i, a ≤ i := by
  intro a ha
  cases acc with
  | nil =>
    rw [onsetStep_nil] at ha
    by_cases hcand : isCand odf mult w i = true
    · rw [if_pos hcand] at ha
      simp only [List.mem_singleton] at ha
      omega
    · rw [if_neg hcand] at ha
      exact absurd ha (List.not_mem_nil a)
  | cons last rest =>
    rw [onsetStep_cons] at ha
    have hlast : last < i := hb last (List.mem_cons_self _ _)
    by_cases hcand : isCand odf mult w i = true
    · rw [if_pos hcand] at ha
      by_cases hgap : minGap ≤ i - last
      · rw [if_pos hgap] at ha
        rcases List.mem_cons.mp ha with h | h
        · omega
        · exact le_of_lt (hb a h)
      · rw [if_neg hgap] at ha
        by_cases hrep : odf.getD last 0 < odf.getD i 0
        · rw [if_pos hrep] at ha
          rcases List.mem_cons.mp ha with h | h
          · omega
          · exact le_of_lt (hb a (List.mem_cons_of_mem _ h))
        · rw [if_neg hrep] at ha
          exact le_of_lt (hb a ha)
    · rw [if_neg hcand] at ha
      exact le_of_lt (hb a ha)

/-- The peak-picking step preserves the reversed-list invariant: the
accumulator is strictly decreasing with consecutive gaps of at least
`minGap`.  Replacement moves the most recent onset to a strictly later
frame, so its gap to its predecessor only grows. -/
lemma onsetStep_chain {odf : List ℚ} {minGap w : ℕ} {mult : ℚ} {i : ℕ}
    {acc : List ℕ} (hb : ∀ a ∈ acc, a < i)
    (hc : acc.Chain' (fun a b => b < a ∧ b + minGap ≤ a)) :
    (onsetStep odf minGap mult w acc i).Chain'
      (fun a b => b < a ∧ b + minGap ≤ a) := by
  cases acc with
  | nil =>
    rw [onsetStep_nil]
    by_cases hcand : isCand odf mult w i = true
    · rw [if_pos hcand]
      exact List.chain'_singleton i
    · rw [if_neg hcand]
      exact hc
  | cons last rest =>
    rw [onsetStep_cons]
    have hlast : last < i := hb last (List.mem_cons_self _ _)
    by_cases hcand : isCand odf mult w i = true
    · rw [if_pos hcand]
      by_cases hgap : minGap ≤ i - last
      · rw [if_pos hgap]
        exact List.chain'_cons.mpr ⟨⟨hlast, by omega⟩, hc⟩
      · rw [if_neg hgap]
        by_cases hrep : odf.getD last 0 < odf.getD i 0
        · rw [if_pos hrep]
          cases rest with
          | nil => exact List.chain'_singleton i
          | cons r rs =>
            obtain ⟨⟨hr1, hr2⟩, htl⟩ := List.chain'_cons.mp hc
            exact List.chain'_cons.mpr ⟨⟨by omega, by omega⟩, htl⟩
        · rw [if_neg hrep]
          exact hc
    · rw [if_neg hcand]
      exact hc

/-- Folding the peak-picking step over strictly increasing indices keeps
the reversed accumulator strictly decreasing with gaps of at least
`minGap`. -/
lemma foldl_onsetStep_chain (odf : List ℚ) (minGap w : ℕ) (mult : ℚ) :
    ∀ (is : List ℕ) (acc : List ℕ), is.Pairwise (· < ·) →
      (∀ a ∈ acc, ∀ j ∈ is, a < j) →
      acc.Chain' (fun a b => b < a ∧ b + minGap ≤ a) →
      (is.foldl (onsetStep odf minGap mult w) acc).Chain'
        (fun a b => b < a ∧ b + minGap ≤ a) := by
  intro is
  induction is with
  | nil => intro acc _ _ hc; exact hc
  | cons j rest ih =>
    intro acc hp hbound hc
    obtain ⟨hj, hrest⟩ := List.pairwise_cons.mp hp
    have hbj : ∀ a ∈ acc, a < j :=
      fun a ha => hbound a ha j (List.mem_cons_self _ _)
    refine ih (onsetStep odf minGap mult w acc j) hrest ?_ ?_
    · intro a ha k hk
      exact lt_of_le_of_lt (onsetStep_le hbj a ha) (hj k hk)
    · exact onsetStep_chain hbj hc

/-- Claim C1: for every input detection signal and every
sensitivity/minInterval/adaptiveWindow configuration, the list returned by
`_detectOnsets` is strictly increasing, and every two consecutive onset
frame indices differ by at least
`minGapFrames = floor(minInterval * sampleRate / hopSize)`; the guarantee
survives the replace-in-place reconciliation because a replacement moves
the most recent onset to a strictly later frame, which only increases its
gap to its predecessor. -/
theorem detectOnsets_strictIncreasing_minGap (sr : ℕ) (signal : List ℚ)
    (sensitivity minInterval : ℚ) (w : ℕ) :
    (detectOnsets sr signal sensitivity minInterval w).Chain'
      (fun a b => a < b ∧ a + minGapFrames sr minInterval ≤ b) := by
  unfold detectOnsets
  rw [List.chain'_reverse]
  exact foldl_onsetStep_chain _ _ _ _ _ []
    (List.pairwise_lt_range' _ _)
    (by intro a ha; exact absurd ha (List.not_mem_nil a))
    List.chain'_nil

/-- Claim C2: in `_detectOnsets`, a candidate peak lying within
`minGapFrames` of the most recently accepted onset never appends a new
onset: it overwrites the most recent onset exactly when its ODF value
strictly exceeds the ODF value at that onset's frame, and otherwise the
list is unchanged. -/
theorem onsetStep_replacePolicy (odf : List ℚ) (minGap w : ℕ) (mult : ℚ)
    (i last : ℕ) (rest : List ℕ)
    (hcand : isCand odf mult w i = true)
    (hgap : i - last < minGap) :
    onsetStep odf minGap mult w (last :: rest) i =
      if odf.getD last 0 < odf.getD i 0 then i :: rest else last :: rest := by
  rw [onsetStep_cons, if_pos hcand, if_neg (by omega : ¬ minGap ≤ i - last)]

/-- Witness for C2: with ODF `[0, 5, 0, 6, 0]`, window 1 and default
sensitivity, frame 3 is a candidate (6 exceeds the local threshold
`2 * 2.5 + 0.001`), lies within the gap 86 of the accepted onset 1, and
has a strictly larger ODF value (6 > 5), so it replaces it in place. -/
theorem onsetStep_replacePolicy_witness :
    isCand [0, 5, 0, 6, 0] (thresholdMult (1/2)) 1 3 = true ∧
    3 - 1 < 86 ∧
    onsetStep [0, 5, 0, 6, 0] 86 (thresholdMult (1/2)) 1 [1] 3 = [3] :=
  ⟨by with_unfolding_all decide, by decide,
    (onsetStep_replacePolicy [0, 5, 0, 6, 0] 86 1 (thresholdMult (1/2)) 3 1 []
      (by with_unfolding_all decide) (by decide)).trans
      (by with_unfolding_all decide)⟩

/-! ### The band partition (claim C9) -/

/-- Evaluation rule for `_binForFreq`: the rounded value is `n` once
`n ≤ freq * fftSize / sampleRate + 1/2 < n + 1`. -/
lemma binForFreq_eq (sr : ℕ) (f : ℚ) (n : ℕ)
    (h1 : (n : ℚ) ≤ f * (fftSize : ℚ) / (sr : ℚ) + 1/2)
    (h2 : f * (fftSize : ℚ) / (sr : ℚ) + 1/2 < n + 1) :
    binForFreq sr f = n := by
  have hfl : ⌊f * (fftSize : ℚ) / (sr : ℚ) + 1/2⌋ = (n : ℤ) :=
    Int.floor_eq_iff.mpr ⟨by exact_mod_cast h1, by push_cast; exact_mod_cast h2⟩
  rw [binForFreq, jsRound, hfl, Int.toNat_natCast]

/-- The twelve band-edge bins at the default sample rate 44100. -/
lemma bandBins_44100 :
    (bandOrder.map fun b => (bandLowBin 44100 b, bandHighBin 44100 b)) =
      [(1, 4), (4, 14), (14, 93), (93, 279), (279, 557), (557, 929)] := by
  have e20 : binForFreq 44100 20 = 1 :=
    binForFreq_eq 44100 20 1 (by norm_num [fftSize]) (by norm_num [fftSize])
  have e80 : binForFreq 44100 80 = 4 :=
    binForFreq_eq 44100 80 4 (by norm_num [fftSize]) (by norm_num [fftSize])
  have e300 : binForFreq 44100 300 = 14 :=
    binForFreq_eq 44100 300 14 (by norm_num [fftSize]) (by norm_num [fftSize])
  have e2000 : binForFreq 44100 2000 = 93 :=
    binForFreq_eq 44100 2000 93 (by norm_num [fftSize]) (by norm_num [fftSize])
  have e6000 : binForFreq 44100 6000 = 279 :=
    binForFreq_eq 44100 6000 279 (by norm_num [fftSize]) (by norm_num [fftSize])
  have e12000 : binForFreq 44100 12000 = 557 :=
    binForFreq_eq 44100 12000 557 (by norm_num [fftSize]) (by norm_num [fftSize])
  have e20000 : binForFreq 44100 20000 = 929 :=
    binForFreq_eq 44100 20000 929 (by norm_num [fftSize]) (by norm_num [fftSize])
  simp only [bandOrder, List.map_cons, List.map_nil, bandLowBin, bandHighBin,
    bandLowFreq, bandHighFreq, e20, e80, e300, e2000, e6000, e12000, e20000]
  decide

/-- The set of spectrogram bins a band covers: the inclusive range
`[lowBin, highBin]` iterated by `_extractBandEnergies` and
`_computeBandFlux`. -/
def bandBinSet (sr : ℕ) (b : BandName) : Finset ℕ :=
  Finset.Icc (bandLowBin sr b) (bandHighBin sr b)

/-- Claim C9, counterexample: at the default sample rate 44100 the rounded
boundary bin 4 (= `_binForFreq(80)`) belongs to the covered bin range of
both subBass (bins 1–4) and bass (bins 4–14), so it is a spectrogram bin
covered by two distinct bands, contradicting "no spectrogram bin is
covered by two bands". -/
theorem bandBinSet_sharedBoundary_cex :
    BandName.subBass ≠ BandName.bass ∧
    4 ∈ bandBinSet 44100 BandName.subBass ∧
    4 ∈ bandBinSet 44100 BandName.bass := by
  have h := bandBins_44100
  simp only [bandOrder, List.map_cons, List.map_nil, List.cons.injEq,
    Prod.mk.injEq, and_true] at h
  refine ⟨by decide, ?_, ?_⟩ <;>
    simp only [bandBinSet, h.1.1, h.1.2, h.2.1.1, h.2.1.2] <;> decide

set_option maxRecDepth 8000 in
/-- Claim C9 as amended: at sample rate 44100 the six bin ranges are
monotonically increasing — each successive band's low bin is greater than
or equal to (indeed equal to) the previous band's high bin — and any two
distinct bands overlap in at most the shared boundary bins
4, 14, 93, 279 and 557 (adjacent bands share exactly their boundary bin);
every bin other than these is covered by at most one band. -/
theorem bandBinSet_monotone_boundaryOnly :
    bandOrder.Chain' (fun a b => bandHighBin 44100 a ≤ bandLowBin 44100 b) ∧
    bandOrder.Pairwise (fun b1 b2 =>
      bandBinSet 44100 b1 ∩ bandBinSet 44100 b2 ⊆
        ({4, 14, 93, 279, 557} : Finset ℕ)) := by
  have h := bandBins_44100
  simp only [bandOrder, List.map_cons, List.map_nil, List.cons.injEq,
    Prod.mk.injEq, and_true] at h
  obtain ⟨⟨l1, h1⟩, ⟨l2, h2⟩, ⟨l3, h3⟩, ⟨l4, h4⟩, ⟨l5, h5⟩, l6, h6⟩ := h
  constructor
  · simp only [bandOrder, List.chain'_cons, List.chain'_singleton,
      l1, h1, l2, h2, l3, h3, l4, h4, l5, h5, l6, h6]
    decide
  · simp only [bandOrder, List.pairwise_cons, List.forall_mem_cons, bandBinSet,
      l1, h1, l2, h2, l3, h3, l4, h4, l5, h5, l6, h6]
    repeat' apply And.intro
    all_goals first
      | (intro x hx
         simp only [Finset.mem_inter, Finset.mem_Icc] at hx
         simp only [Finset.mem_insert, Finset.mem_singleton]
         omega)
      | exact List.Pairwise.nil
      | exact List.forall_mem_nil _

/-! ### The BPM estimator's range (claim C5) -/

/-- Halving decreases the ceiling measure used by the octave-folding
loops. -/
lemma ceil_half_toNat_lt (x : ℚ) (h : 1 < x) :
    (⌈x / 2⌉).toNat < (⌈x⌉).toNat := by
  have h1 : (1 : ℤ) < ⌈x⌉ := Int.lt_ceil.mpr (by push_cast; linarith)
  have h2 : (2 : ℤ) ≤ ⌈x⌉ := by omega
  have h2q : (2 : ℚ) ≤ (⌈x⌉ : ℚ) := by exact_mod_cast h2
  have hle : x ≤ (⌈x⌉ : ℚ) := Int.le_ceil _
  have hstep : ⌈x / 2⌉ ≤ ⌈x⌉ - 1 := by
    apply Int.ceil_le.mpr
    push_cast
    linarith
  omega

/-- Unfolding rule: the halving loop stops at values at most 200. -/
lemma halveWhileGT_of_le (b : ℚ) (h : b ≤ 200) : halveWhileGT b = b := by
  unfold halveWhileGT
  rw [dif_neg (not_lt.mpr h)]

/-- Unfolding rule: the halving loop iterates on values above 200. -/
lemma halveWhileGT_of_gt (b : ℚ) (h : 200 < b) :
    halveWhileGT b = halveWhileGT (b / 2) := by
  conv_lhs => unfold halveWhileGT
  rw [dif_pos h]

/-- Unfolding rule: the doubling loop stops at values at least 60. -/
lemma doubleWhileLT_of_ge (b : ℚ) (h : 60 ≤ b) : doubleWhileLT b = b := by
  unfold doubleWhileLT
  rw [dif_neg (not_lt.mpr h)]

/-- Unfolding rule: the doubling loop iterates on positive values below
60. -/
lemma doubleWhileLT_of_lt (b : ℚ) (h : b < 60) (h0 : 0 < b) :
    doubleWhileLT b = doubleWhileLT (2 * b) := by
  conv_lhs => unfold doubleWhileLT
  rw [dif_pos h, dif_pos h0]

/-- The halving loop maps positive inputs to positive values at most
200. -/
lemma halveWhileGT_bounds (b : ℚ) (h0 : 0 < b) :
    0 < halveWhileGT b ∧ halveWhileGT b ≤ 200 := by
  generalize hn : (⌈b / 200⌉).toNat = n
  induction n using Nat.strong_induction_on generalizing b with
  | _ n ih =>
    by_cases h : 200 < b
    · rw [halveWhileGT_of_gt b h]
      subst hn
      refine ih (⌈b / 2 / 200⌉).toNat ?_ (b / 2) (by linarith) rfl
      have : b / 2 / 200 = b / 200 / 2 := by ring
      rw [this]
      exact ceil_half_toNat_lt (b / 200) (by linarith)
    · rw [halveWhileGT_of_le b (not_lt.mp h)]
      exact ⟨h0, not_lt.mp h⟩

/-- The doubling loop maps values in `(0, 200]` into `[60, 200]`. -/
lemma doubleWhileLT_bounds (b : ℚ) (h0 : 0 < b) (hle : b ≤ 200) :
    60 ≤ doubleWhileLT b ∧ doubleWhileLT b ≤ 200 := by
  generalize hn : (⌈60 / b⌉).toNat = n
  induction n using Nat.strong_induction_on generalizing b with
  | _ n ih =>
    by_cases h : b < 60
    · rw [doubleWhileLT_of_lt b h h0]
      subst hn
      refine ih (⌈60 / (2 * b)⌉).toNat ?_ (2 * b) (by linarith) (by linarith) rfl
      have : 60 / (2 * b) = 60 / b / 2 := by
        rw [div_div]
        ring_nf
      rw [this]
      exact ceil_half_toNat_lt (60 / b) ((one_lt_div h0).mpr h)
    · rw [doubleWhileLT_of_ge b (not_lt.mp h)]
      exact ⟨not_lt.mp h, hle⟩

/-- The best-lag search never returns a lag below its starting value when
every scanned lag is at least that value. -/
lemma foldl_bestLagStep_ge (odf : List ℚ) (init : ℕ) :
    ∀ (lags : List ℕ) (s : ℕ × Option ℚ), init ≤ s.1 →
      (∀ l ∈ lags, init ≤ l) →
      init ≤ (lags.foldl (bestLagStep odf) s).1 := by
  intro lags
  induction lags with
  | nil => intro s hs _; exact hs
  | cons l rest ih =>
    intro s hs hall
    rw [List.foldl_cons]
    refine ih _ ?_ (fun x hx => hall x (List.mem_cons_of_mem _ hx))
    have hl : init ≤ l := hall l (List.mem_cons_self _ _)
    unfold bestLagStep
    rcases s with ⟨a, o⟩
    cases o with
    | none => exact hl
    | some bc =>
      dsimp only
      split
      · exact hl
      · exact hs

/-- `bestLag` is at least `minLag`. -/
lemma bestLagScan_fst_ge (odf : List ℚ) (init : ℕ) (k : ℕ) :
    init ≤ (bestLagScan odf init (List.range' init k)).1 :=
  foldl_bestLagStep_ge odf init _ (init, none) (le_refl init)
    (fun _ hl => (List.mem_range'_1.mp hl).1)

/-- Reading an index of a list whose members are all zero gives zero. -/
lemma getD_zero_of_all {l : List ℚ} (h : ∀ x ∈ l, x = 0) (i : ℕ) :
    l.getD i 0 = 0 := by
  rw [List.getD_eq_getElem?_getD]
  cases hg : l[i]? with
  | none => rfl
  | some a =>
    have := h a (List.getElem?_mem hg)
    simp [this, hg]

/-- The ODF of an all-zero signal is all-zero. -/
lemma odfOf_all_zero {sig : List ℚ} (h : ∀ x ∈ sig, x = 0) :
    ∀ x ∈ odfOf sig, x = 0 := by
  intro x hx
  simp only [odfOf, List.mem_map, List.mem_range] at hx
  obtain ⟨i, _, rfl⟩ := hx
  by_cases h0 : i = 0
  · simp [h0]
  · simp only [h0, if_false, getD_zero_of_all h]
    norm_num

/-- Autocorrelation of an all-zero ODF is zero at every lag. -/
lemma acfAt_all_zero {odf : List ℚ} (h : ∀ x ∈ odf, x = 0) (lag : ℕ) :
    acfAt odf lag = 0 := by
  unfold acfAt
  rw [List.sum_eq_zero, zero_div]
  intro x hx
  simp only [List.mem_map, List.mem_range] at hx
  obtain ⟨i, _, rfl⟩ := hx
  rw [getD_zero_of_all h, zero_mul]

/-- Once the scan state holds the correlation value shared by every
remaining lag, the strict comparison never fires and the state is kept. -/
lemma foldl_bestLagStep_stay (odf : List ℚ) (c : ℚ) :
    ∀ (lags : List ℕ) (s : ℕ × Option ℚ), s.2 = some c →
      (∀ l ∈ lags, acfAt odf l = c) →
      lags.foldl (bestLagStep odf) s = s := by
  intro lags
  induction lags with
  | nil => intro s _ _; rfl
  | cons l rest ih =>
    intro s hs hall
    have hstep : bestLagStep odf s l = s := by
      rcases s with ⟨a, o⟩
      simp only at hs
      subst hs
      unfold bestLagStep
      simp only [hall l (List.mem_cons_self _ _), lt_self_iff_false, if_false]
    rw [List.foldl_cons, hstep]
    exact ih s hs (fun x hx => hall x (List.mem_cons_of_mem _ hx))

/-- When every scanned correlation is zero the search keeps the first lag,
which is `minLag` (the scan range starts there; with an empty range the
initial `bestLag = minLag` also stands). -/
lemma bestLagScan_all_zero (odf : List ℚ) (init k : ℕ)
    (hz : ∀ l, acfAt odf l = 0) :
    (bestLagScan odf init (List.range' init k)).1 = init := by
  cases k with
  | zero => rfl
  | succ k' =>
    unfold bestLagScan
    rw [List.range'_succ, List.foldl_cons]
    have h1 : bestLagStep odf (init, none) init = (init, some 0) := by
      unfold bestLagStep
      simp [hz init]
    rw [h1, foldl_bestLagStep_stay odf 0 _ _ rfl (fun l _ => hz l)]

/-- For an all-zero (or empty) energy signal `_estimateBPM` returns the
BPM derived from `minLag`, octave-folded and rounded. -/
lemma estimateBPM_all_zero (sr : ℕ) (sig : List ℚ)
    (hz : ∀ x ∈ sig, x = 0) :
    estimateBPM sr sig =
      (jsRound (doubleWhileLT (halveWhileGT
        (60 / ((minLagOf sr : ℚ) * (hopSize : ℚ) / (sr : ℚ)))) * 10) : ℚ) / 10 := by
  have hodf : ∀ x ∈ odfOf sig, x = 0 := odfOf_all_zero hz
  simp only [estimateBPM]
  rw [bestLagScan_all_zero _ _ _ (acfAt_all_zero hodf)]

/-- `minLag` at the default sample rate 44100 is 25. -/
lemma minLagOf_44100 : minLagOf 44100 = 25 := by
  have : ⌊(60 / 200 : ℚ) * (44100 : ℚ) / (512 : ℚ)⌋ = 25 :=
    Int.floor_eq_iff.mpr ⟨by norm_num, by norm_num⟩
  simp only [minLagOf, hopSize]
  rw [show ((44100 : ℕ) : ℚ) = (44100 : ℚ) by norm_num,
    show ((512 : ℕ) : ℚ) = (512 : ℚ) by norm_num, this]
  rfl

/-- `minLag` at sample rate 15360 is 9. -/
lemma minLagOf_15360 : minLagOf 15360 = 9 := by
  have : ⌊(60 / 200 : ℚ) * (15360 : ℚ) / (512 : ℚ)⌋ = 9 :=
    Int.floor_eq_iff.mpr ⟨by norm_num, by norm_num⟩
  simp only [minLagOf, hopSize]
  rw [show ((15360 : ℕ) : ℚ) = (15360 : ℚ) by norm_num,
    show ((512 : ℕ) : ℚ) = (512 : ℚ) by norm_num, this]
  rfl

/-- Claim C5, counterexample: at sample rate 15360 (where
`minLag = 9` and `60·(15360/512)/9 = 200` exactly) the BPM returned for a
silent signal is exactly 200, which lies outside the half-open interval
[60, 200) the claim asserts. -/
theorem estimateBPM_reaches_200_cex :
    estimateBPM 15360 (List.replicate 40 0) = 200 ∧
    ¬ estimateBPM 15360 (List.replicate 40 0) < 200 := by
  have hz : ∀ x ∈ List.replicate 40 (0 : ℚ), x = 0 :=
    fun x hx => List.eq_of_mem_replicate hx
  have hval : estimateBPM 15360 (List.replicate 40 0) = 200 := by
    rw [estimateBPM_all_zero 15360 _ hz, minLagOf_15360]
    have hv : (60 : ℚ) / (((9 : ℕ) : ℚ) * (hopSize : ℚ) / ((15360 : ℕ) : ℚ)) = 200 := by
      norm_num [hopSize]
    rw [hv, halveWhileGT_of_le 200 (by norm_num),
      doubleWhileLT_of_ge 200 (by norm_num)]
    have : jsRound ((200 : ℚ) * 10) = 2000 := by
      unfold jsRound
      exact Int.floor_eq_iff.mpr ⟨by norm_num, by norm_num⟩
    rw [this]
    norm_num
  exact ⟨hval, by rw [hval]; exact lt_irrefl 200⟩

/-- Claim C5 as amended: for every input energy signal, at any sample rate
for which `minLag ≥ 1` (true of every real audio sample rate; it only
fails below 1707 Hz), the value returned by `_estimateBPM` lies in the
closed interval [60, 200].  The upper endpoint 200 is attainable (see the
counterexample), so the interval cannot be half-open. -/
theorem estimateBPM_bounds (sr : ℕ) (sig : List ℚ)
    (h : 1 ≤ minLagOf sr) :
    60 ≤ estimateBPM sr sig ∧ estimateBPM sr sig ≤ 200 := by
  have hsr : 0 < sr := by
    rcases Nat.eq_zero_or_pos sr with h0 | h0
    · subst h0
      norm_num [minLagOf] at h
    · exact h0
  simp only [estimateBPM]
  have hL : minLagOf sr ≤
      (bestLagScan (odfOf sig) (minLagOf sr)
        (List.range' (minLagOf sr)
          (min (maxLagOf sr + 1) (odfOf sig).length - minLagOf sr))).1 :=
    bestLagScan_fst_ge _ _ _
  set bl := (bestLagScan (odfOf sig) (minLagOf sr)
    (List.range' (minLagOf sr)
      (min (maxLagOf sr + 1) (odfOf sig).length - minLagOf sr))).1 with hbl
  have hblpos : (0 : ℚ) < (bl : ℚ) := by
    have : 1 ≤ bl := le_trans h hL
    exact_mod_cast this
  have hint : (0 : ℚ) < (bl : ℚ) * (hopSize : ℚ) / (sr : ℚ) := by
    apply div_pos
    · apply mul_pos hblpos
      norm_num [hopSize]
    · exact_mod_cast hsr
  have hbpm : (0 : ℚ) < 60 / ((bl : ℚ) * (hopSize : ℚ) / (sr : ℚ)) :=
    div_pos (by norm_num) hint
  obtain ⟨hp, hle⟩ := halveWhileGT_bounds _ hbpm
  obtain ⟨hd1, hd2⟩ := doubleWhileLT_bounds _ hp hle
  set d := doubleWhileLT (halveWhileGT (60 / ((bl : ℚ) * (hopSize : ℚ) / (sr : ℚ))))
  have hlow : (600 : ℤ) ≤ jsRound (d * 10) := by
    unfold jsRound
    apply Int.le_floor.mpr
    push_cast
    linarith
  have hhigh : jsRound (d * 10) ≤ 2000 := by
    unfold jsRound
    have h2000 : ⌊(4001 / 2 : ℚ)⌋ = 2000 :=
      Int.floor_eq_iff.mpr ⟨by norm_num, by norm_num⟩
    calc ⌊d * 10 + 1/2⌋ ≤ ⌊(4001 / 2 : ℚ)⌋ :=
          Int.floor_le_floor (by linarith)
      _ = 2000 := h2000
  constructor
  · have : (600 : ℚ) ≤ (jsRound (d * 10) : ℚ) := by exact_mod_cast hlow
    linarith
  · have : ((jsRound (d * 10) : ℚ)) ≤ 2000 := by exact_mod_cast hhigh
    linarith

/-- Witness for the amended C5 at the default sample rate and the empty
signal. -/
theorem estimateBPM_bounds_witness :
    1 ≤ minLagOf 44100 ∧
    (60 ≤ estimateBPM 44100 [] ∧ estimateBPM 44100 [] ≤ 200) :=
  ⟨by rw [minLagOf_44100]; norm_num,
    estimateBPM_bounds 44100 [] (by rw [minLagOf_44100]; norm_num)⟩

/-! ### Bounds on the detection signals (claim C7) -/

/-- The initial value is a lower bound of a `foldl max`. -/
lemma le_foldl_max (l : List ℚ) : ∀ a : ℚ, a ≤ l.foldl max a := by
  induction l with
  | nil => intro a; exact le_refl a
  | cons x xs ih =>
    intro a
    rw [List.foldl_cons]
    exact le_trans (le_max_left a x) (ih (max a x))

/-- Every member of a list is a lower bound of its `foldl max`. -/
lemma mem_le_foldl_max (l : List ℚ) : ∀ (a x : ℚ), x ∈ l → x ≤ l.foldl max a := by
  induction l with
  | nil => intro a x hx; exact absurd hx (List.not_mem_nil x)
  | cons y ys ih =>
    intro a x hx
    rw [List.foldl_cons]
    rcases List.mem_cons.mp hx with h | h
    · subst h
      exact le_trans (le_max_right a x) (le_foldl_max ys _)
    · exact ih _ x h

/-- `foldl max` is bounded by any common upper bound. -/
lemma foldl_max_le (l : List ℚ) : ∀ (a c : ℚ), a ≤ c → (∀ x ∈ l, x ≤ c) →
    l.foldl max a ≤ c := by
  induction l with
  | nil => intro a c ha _; exact ha
  | cons y ys ih =>
    intro a c ha hl
    rw [List.foldl_cons]
    exact ih _ c (max_le ha (hl y (List.mem_cons_self _ _)))
      (fun x hx => hl x (List.mem_cons_of_mem _ hx))

/-- The normalisation block of `_combineBands` maps a nonnegative list
into `[0, 1]`. -/
lemma maxNormalize_bounds {l : List ℚ} (hnn : ∀ c ∈ l, 0 ≤ c) :
    ∀ x ∈ maxNormalize l, 0 ≤ x ∧ x ≤ 1 := by
  intro x hx
  simp only [maxNormalize] at hx
  by_cases hm : 0 < l.foldl max 0
  · rw [if_pos hm] at hx
    obtain ⟨c, hc, rfl⟩ := List.mem_map.mp hx
    exact ⟨div_nonneg (hnn c hc) (le_of_lt hm),
      (div_le_one hm).mpr (mem_le_foldl_max l 0 c hc)⟩
  · rw [if_neg hm] at hx
    have h2 := mem_le_foldl_max l 0 x hx
    exact ⟨hnn x hx, by linarith [not_lt.mp hm]⟩

/-- The normalisation block leaves an all-zero list unchanged (the
division is skipped when the maximum is 0). -/
lemma maxNormalize_all_zero {l : List ℚ} (h : ∀ c ∈ l, c = 0) :
    maxNormalize l = l := by
  simp only [maxNormalize]
  rw [if_neg]
  rw [not_lt]
  exact foldl_max_le l 0 0 (le_refl 0) (fun x hx => le_of_eq (h x hx))

/-- `BandMap.ofFun` lookup. -/
lemma BandMap.get_ofFun (f : BandName → List ℚ) (n : BandName) :
    (BandMap.ofFun f).get n = f n := by
  cases n <;> rfl

/-- Band energies are nonnegative (mean of squares; in the degenerate
clamped case the empty sum gives 0). -/
lemma bandEnergyFrame_nonneg (lo hi : ℕ) (frame : List ℚ) :
    0 ≤ bandEnergyFrame lo hi frame := by
  unfold bandEnergyFrame
  rcases le_or_lt lo hi with h | h
  · apply div_nonneg
    · apply List.sum_nonneg
      intro x hx
      obtain ⟨b, _, rfl⟩ := List.mem_map.mp hx
      exact mul_self_nonneg _
    · have : (lo : ℚ) ≤ (hi : ℚ) := by exact_mod_cast h
      linarith
  · have hc : hi + 1 - lo = 0 := by omega
    unfold binSum
    rw [hc]
    simp

/-- All entries of the extracted band-energy series are nonnegative. -/
lemma extractBandEnergies_nonneg (sr : ℕ) (spec : List (List ℚ)) :
    ∀ n, ∀ v ∈ (extractBandEnergies sr spec).get n, 0 ≤ v := by
  intro n v hv
  rw [extractBandEnergies, BandMap.get_ofFun] at hv
  obtain ⟨fr, _, rfl⟩ := List.mem_map.mp hv
  exact bandEnergyFrame_nonneg _ _ fr

/-- All entries of the band-flux series are nonnegative whenever the
square-root function is nonnegative. -/
lemma computeBandFlux_nonneg (sr : ℕ) (sq : ℚ → ℚ) (spec : List (List ℚ))
    (hsq : ∀ q, 0 ≤ sq q) :
    ∀ n, ∀ v ∈ (computeBandFlux sr sq spec).get n, 0 ≤ v := by
  intro n v hv
  rw [computeBandFlux, BandMap.get_ofFun] at hv
  unfold fluxSeries at hv
  obtain ⟨i, _, rfl⟩ := List.mem_map.mp hv
  by_cases h0 : i = 0
  · simp [h0]
  · simp only [h0, if_false]
    exact hsq _

/-- `_combineBands` output lies in `[0, 1]` when the named series and the
weights are nonnegative. -/
lemma combineBands_bounds {bd : BandMap} {names : List BandName}
    {weights : List ℚ} (hdata : ∀ n ∈ names, ∀ v ∈ bd.get n, 0 ≤ v)
    (hw : ∀ u ∈ weights, 0 ≤ u) :
    ∀ x ∈ combineBands bd names weights, 0 ≤ x ∧ x ≤ 1 := by
  apply maxNormalize_bounds
  intro c hc
  obtain ⟨j, _, rfl⟩ := List.mem_map.mp hc
  apply List.sum_nonneg
  intro t ht
  obtain ⟨p, hp, rfl⟩ := List.mem_map.mp ht
  obtain ⟨hp1, hp2⟩ := List.of_mem_zip hp
  apply mul_nonneg ?_ (hw p.2 hp2)
  rcases hg : (bd.get p.1)[j]? with _ | a
  · rw [List.getD_eq_getElem?_getD, hg]
    rfl
  · rw [List.getD_eq_getElem?_getD, hg]
    exact hdata p.1 hp1 a (List.getElem?_mem hg)

/-- A `getD` read from a list bounded in `[0, 1]` is itself in `[0, 1]`
(out-of-range reads give the default 0). -/
lemma getD_bounds {l : List ℚ} (h : ∀ x ∈ l, 0 ≤ x ∧ x ≤ 1) (i : ℕ) :
    0 ≤ l.getD i 0 ∧ l.getD i 0 ≤ 1 := by
  rw [List.getD_eq_getElem?_getD]
  rcases hg : l[i]? with _ | a
  · norm_num
  · exact h a (List.getElem?_mem hg)

/-- Spectral broadness lies in `[0, 1]`: zero-energy frames give 0 and
other frames are clamped by `Math.min(1, ·)`. -/
lemma broadness_bounds (sq : ℚ → ℚ) (spec : List (List ℚ))
    (hsq : ∀ q, 0 ≤ sq q) :
    ∀ x ∈ computeSpectralBroadness sq spec, 0 ≤ x ∧ x ≤ 1 := by
  intro x hx
  obtain ⟨fr, _, rfl⟩ := List.mem_map.mp hx
  simp only [broadnessFrame]
  by_cases h0 : ((List.range fr.length).map fun b =>
      fr.getD b 0 * fr.getD b 0).sum = 0
  · rw [if_pos h0]
    norm_num
  · rw [if_neg h0]
    constructor
    · apply le_min (by norm_num)
      apply div_nonneg (hsq _)
      positivity
    · exact min_le_left _ _

/-- `normalizeByMax` maps a nonnegative list into `[0, 1]`. -/
lemma normalizeByMax_bounds {l : List ℚ} (hnn : ∀ x ∈ l, 0 ≤ x) :
    ∀ x ∈ normalizeByMax l, 0 ≤ x ∧ x ≤ 1 := by
  intro x hx
  rcases hmax : l.max? with _ | m
  · simp only [normalizeByMax, hmax] at hx
    rw [List.max?_eq_none_iff.mp hmax] at hx
    exact absurd hx (List.not_mem_nil x)
  · simp only [normalizeByMax, hmax] at hx
    have hm_mem : m ∈ l := List.max?_mem (fun a b => max_choice a b) hmax
    have hle : ∀ b ∈ l, b ≤ m :=
      (List.max?_le_iff (fun _ _ _ => max_le_iff) hmax).mp (le_refl m)
    have hm0 : 0 ≤ m := hnn m hm_mem
    obtain ⟨c, hc, rfl⟩ := List.mem_map.mp hx
    by_cases h0 : m = 0
    · rw [if_pos h0]
      have hc0 : c = 0 := le_antisymm (h0 ▸ hle c hc) (hnn c hc)
      rw [hc0]
      norm_num
    · rw [if_neg h0]
      have hmpos : 0 < m := lt_of_le_of_ne hm0 (Ne.symm h0)
      exact ⟨div_nonneg (hnn c hc) hm0, (div_le_one hmpos).mpr (hle c hc)⟩

/-- The centroid-flux series lies in `[0, 1]`. -/
lemma centroidFlux_bounds (sr : ℕ) (spec : List (List ℚ)) :
    ∀ x ∈ computeCentroidFlux sr spec, 0 ≤ x ∧ x ≤ 1 := by
  unfold computeCentroidFlux
  apply normalizeByMax_bounds
  intro x hx
  obtain ⟨i, _, rfl⟩ := List.mem_map.mp hx
  by_cases h0 : i = 0
  · simp [h0]
  · simp only [h0, if_false]
    exact abs_nonneg _

/-- The vocal-flux series lies in `[0, 1]` whenever the square-root
function is nonnegative. -/
lemma vocalFlux_bounds (sr : ℕ) (sq : ℚ → ℚ) (spec : List (List ℚ))
    (hsq : ∀ q, 0 ≤ sq q) :
    ∀ x ∈ computeVocalFlux sr sq spec, 0 ≤ x ∧ x ≤ 1 := by
  unfold computeVocalFlux
  apply normalizeByMax_bounds
  intro x hx
  obtain ⟨i, _, rfl⟩ := List.mem_map.mp hx
  by_cases h0 : i = 0
  · simp [h0]
  · simp only [h0, if_false]
    exact hsq _

/-- An element of `l.enum` has its second component in `l`. -/
lemma snd_mem_of_mem_enum {α : Type} {l : List α} {p : ℕ × α}
    (hp : p ∈ l.enum) : p.2 ∈ l := by
  have := List.mem_enum_iff_getElem?.mp hp
  exact List.getElem?_mem this

/-- Claim C7 as amended: for kick and bass the detection signal is the
max-normalised `_combineBands` output and lies in `[0, 1]` (with the
division skipped on an all-zero mixture, which stays all-zero); the
snare, melody and vocal signals also lie in `[0, 1]` (snare and melody are
products/mixtures of normalised components, though not re-divided by their
own maximum).  The hi-hat signal is excluded: it mixes in the
unnormalised HFC series and can exceed 1 (see the counterexample). -/
theorem detectionSignals_bounds (sr : ℕ) (sq : ℚ → ℚ)
    (spec : List (List ℚ)) (hsq : ∀ q, 0 ≤ sq q) :
    (∀ x ∈ kickSignal (extractBandEnergies sr spec), 0 ≤ x ∧ x ≤ 1) ∧
    (∀ x ∈ snareSignal sq spec (extractBandEnergies sr spec), 0 ≤ x ∧ x ≤ 1) ∧
    (∀ x ∈ bassFluxSignal (computeBandFlux sr sq spec), 0 ≤ x ∧ x ≤ 1) ∧
    (∀ x ∈ melodySignal sr spec (computeBandFlux sr sq spec), 0 ≤ x ∧ x ≤ 1) ∧
    (∀ x ∈ computeVocalFlux sr sq spec, 0 ≤ x ∧ x ≤ 1) := by
  have hE := extractBandEnergies_nonneg sr spec
  have hF := computeBandFlux_nonneg sr sq spec hsq
  refine ⟨?_, ?_, ?_, ?_, vocalFlux_bounds sr sq spec hsq⟩
  · exact combineBands_bounds (fun n _ => hE n) (by norm_num)
  · intro x hx
    obtain ⟨p, hp, rfl⟩ := List.mem_map.mp hx
    have he : 0 ≤ p.2 ∧ p.2 ≤ 1 :=
      combineBands_bounds (fun n _ => hE n) (by norm_num) p.2
        (snd_mem_of_mem_enum hp)
    have hb : 0 ≤ (computeSpectralBroadness sq spec).getD p.1 0 ∧
        (computeSpectralBroadness sq spec).getD p.1 0 ≤ 1 :=
      getD_bounds (broadness_bounds sq spec hsq) p.1
    constructor
    · apply mul_nonneg he.1
      linarith [hb.1]
    · apply mul_le_one₀ he.2 (by linarith [hb.1])
      linarith [hb.2]
  · exact combineBands_bounds (fun n _ => hF n) (by norm_num)
  · intro x hx
    obtain ⟨p, hp, rfl⟩ := List.mem_map.mp hx
    have he : 0 ≤ p.2 ∧ p.2 ≤ 1 :=
      combineBands_bounds (fun n _ => hF n) (by norm_num) p.2
        (snd_mem_of_mem_enum hp)
    have hc : 0 ≤ (computeCentroidFlux sr spec).getD p.1 0 ∧
        (computeCentroidFlux sr spec).getD p.1 0 ≤ 1 :=
      getD_bounds (centroidFlux_bounds sr spec) p.1
    constructor
    · have := hc.1
      have := he.1
      positivity
    · nlinarith [he.1, he.2, hc.1, hc.2]

/-- Witness for the amended C7 on a small concrete spectrogram with the
zero square-root function. -/
theorem detectionSignals_bounds_witness :
    (∀ q : ℚ, 0 ≤ (fun _ : ℚ => (0 : ℚ)) q) ∧
    (∀ x ∈ kickSignal (extractBandEnergies 44100 [[1, 2], [3, 4]]),
      0 ≤ x ∧ x ≤ 1) :=
  ⟨fun _ => le_refl 0,
    (detectionSignals_bounds 44100 (fun _ => 0) [[1, 2], [3, 4]]
      (fun _ => le_refl 0)).1⟩

/-- Reading a `getD` within range equals the indexed element. -/
lemma getD_eq_getElem (l : List ℚ) (i : ℕ) (h : i < l.length) :
    l.getD i 0 = l[i] := by
  rw [List.getD_eq_getElem?_getD, List.getElem?_eq_getElem h]
  rfl

/-- An in-range entry of the hi-hat signal is the energy mixture entry
times 0.4 plus the HFC entry times 0.6. -/
lemma hihatSignal_getD (spec : List (List ℚ)) (be : BandMap) (i : ℕ)
    (hi : i < (combineBands be [.presence, .brilliance] [5/10, 5/10]).length) :
    (hihatSignal spec be).getD i 0 =
      (combineBands be [.presence, .brilliance] [5/10, 5/10]).getD i 0 * (4/10) +
      (computeHFC spec).getD i 0 * (6/10) := by
  unfold hihatSignal
  have hlen : i < ((combineBands be [.presence, .brilliance]
      [5/10, 5/10]).enum.map fun p =>
        p.2 * (4/10) + (computeHFC spec).getD p.1 0 * (6/10)).length := by
    rw [List.length_map, List.enum_length]
    exact hi
  rw [getD_eq_getElem _ _ hlen, List.getElem_map, List.getElem_enum,
    getD_eq_getElem _ _ hi]

/-- Gauss sum: the sum of `b + 1` over `b < n`, in ℚ. -/
lemma sum_range_add_one (n : ℕ) :
    ((List.range n).map fun b : ℕ => ((b : ℚ) + 1)).sum = n * (n + 1) / 2 := by
  induction n with
  | zero => simp
  | succ k ih =>
    rw [List.range_succ, List.map_append, List.sum_append, ih]
    push_cast
    simp only [List.map_cons, List.map_nil, List.sum_cons, List.sum_nil]
    ring

/-- The length of the normalisation output equals its input length. -/
lemma maxNormalize_length (l : List ℚ) : (maxNormalize l).length = l.length := by
  simp only [maxNormalize]
  split
  · rw [List.length_map]
  · rfl

/-- The length of a `_combineBands` output with a nonempty name list is
the length of the first named series. -/
lemma combineBands_length_cons (bd : BandMap) (n : BandName)
    (rest : List BandName) (weights : List ℚ) :
    (combineBands bd (n :: rest) weights).length = (bd.get n).length := by
  simp [combineBands, maxNormalize_length]

set_option maxRecDepth 10000 in
/-- The HFC of a frame that is constantly 2 over 1024 bins (the real frame
length `fftSize / 2`) is `4 · (1024 · 1025 / 2) / 1024 = 2050`. -/
lemma hfcFrame_const_two :
    hfcFrame (List.replicate 1024 (2 : ℚ)) = 2050 := by
  unfold hfcFrame
  rw [List.length_replicate]
  have hcongr : (List.range 1024).map
        (fun b => (List.replicate 1024 (2:ℚ)).getD b 0 *
          (List.replicate 1024 (2:ℚ)).getD b 0 * ((b : ℚ) + 1)) =
      (List.range 1024).map (fun b : ℕ => 4 * ((b : ℚ) + 1)) := by
    apply List.map_congr_left
    intro b hb
    have hblt : b < 1024 := List.mem_range.mp hb
    have hg : (List.replicate 1024 (2:ℚ)).getD b 0 = 2 := by
      rw [List.getD_eq_getElem?_getD, List.getElem?_replicate]
      simp [hblt]
    rw [hg]
    ring
  rw [hcongr, List.sum_map_mul_left, sum_range_add_one]
  norm_num

/-- A spectrogram with the real frame length (1024 bins each): one silent
frame followed by one frame that is constantly 2. -/
def hihatCexSpec : List (List ℚ) :=
  [List.replicate 1024 0, List.replicate 1024 2]

/-- Claim C7, counterexample: on a spectrogram whose 1024-bin frames are a
silent frame followed by a frame of constant magnitude 2, the hi-hat
detection signal handed to `_detectOnsets` has an entry of at least 1230
(the unnormalised HFC term contributes `2050 · 0.6`), so the hi-hat
DetectionSignal is not globally max-normalised into [0, 1]. -/
theorem hihatSignal_exceeds_one_cex :
    1 < (hihatSignal hihatCexSpec
      (extractBandEnergies 44100 hihatCexSpec)).getD 1 0 := by
  have hElen : (combineBands (extractBandEnergies 44100 hihatCexSpec)
      [.presence, .brilliance] [5/10, 5/10]).length = 2 := by
    rw [combineBands_length_cons]
    rw [extractBandEnergies, BandMap.get_ofFun, List.length_map]
    rfl
  have hget := hihatSignal_getD hihatCexSpec
    (extractBandEnergies 44100 hihatCexSpec) 1 (by rw [hElen]; norm_num)
  have he : 0 ≤ (combineBands (extractBandEnergies 44100 hihatCexSpec)
      [.presence, .brilliance] [5/10, 5/10]).getD 1 0 :=
    (getD_bounds (combineBands_bounds
      (fun n _ => extractBandEnergies_nonneg 44100 hihatCexSpec n)
      (by norm_num)) 1).1
  have hh : (computeHFC hihatCexSpec).getD 1 0 = 2050 := by
    unfold computeHFC hihatCexSpec
    rw [List.map_cons, List.map_cons, List.map_nil]
    rw [show ((1:ℕ)) = 0 + 1 from rfl]
    rw [List.getD_cons_succ, List.getD_cons_zero]
    exact hfcFrame_const_two
  rw [hget, hh]
  linarith

/-! ### The orchestrator without cancellation (claims C3, C4, C6, C8, C10) -/

/-- The STFT frame loop never aborts under a constantly-false cancellation
flag and produces the frames in order. -/
lemma stftGo_constFalse (fm : List ℚ → List ℚ) (samples : List ℚ) :
    ∀ (is : List ℕ) (idx : ℕ) (acc : List (List ℚ)),
      ∃ n, stftGo fm samples (fun _ => false) is idx acc =
        (some (acc.reverse ++ is.map (stftFrame fm samples)), n) := by
  intro is
  induction is with
  | nil =>
    intro idx acc
    exact ⟨idx, by simp [stftGo]⟩
  | cons f rest ih =>
    intro idx acc
    by_cases h : f % 200 = 0
    · obtain ⟨n, hn⟩ := ih (idx + 1) (stftFrame fm samples f :: acc)
      refine ⟨n, ?_⟩
      rw [stftGo, if_pos h, if_neg (by simp), hn]
      simp
    · obtain ⟨n, hn⟩ := ih idx (stftFrame fm samples f :: acc)
      refine ⟨n, ?_⟩
      rw [stftGo, if_neg h, hn]
      simp

/-- `_computeSTFT` under a constantly-false flag returns the full
spectrogram. -/
lemma computeSTFT_constFalse (fm : List ℚ → List ℚ) (samples : List ℚ)
    (idx : ℕ) :
    ∃ n, computeSTFT fm samples (fun _ => false) idx =
      (some (stftSpec fm samples), n) := by
  obtain ⟨n, hn⟩ := stftGo_constFalse fm samples
    (List.range (numFramesOf samples.length).toNat) idx []
  exact ⟨n, by rw [computeSTFT, hn]; rfl⟩

/-- The `AnalysisResult` a non-cancelled `analyze` run produces, written
out stage by stage exactly as `analyze` computes it. -/
def analyzeResult (fm : List ℚ → List ℚ) (sq : ℚ → ℚ)
    (buffer : AudioBuffer) (opts : AnalysisOptions) : AnalysisResult :=
  let sr := buffer.sampleRate
  let spectrogram := stftSpec fm (mixToMono buffer)
  let bandEnergies := extractBandEnergies sr spectrogram
  let bandFlux := computeBandFlux sr sq spectrogram
  { kick := if opts.detectKick then
      some (mkEvents sr "kick" (kickSignal bandEnergies)
        (detectOnsets sr (kickSignal bandEnergies) opts.sensitivityKick
          opts.minIntervalKick 15))
      else none,
    snare := if opts.detectSnare then
      some (mkEvents sr "snare" (snareSignal sq spectrogram bandEnergies)
        (detectOnsets sr (snareSignal sq spectrogram bandEnergies)
          opts.sensitivitySnare opts.minIntervalSnare 12))
      else none,
    hihat := if opts.detectHihat then
      some (mkEvents sr "hihat" (hihatSignal spectrogram bandEnergies)
        (detectOnsets sr (hihatSignal spectrogram bandEnergies)
          opts.sensitivityHihat opts.minIntervalHihat 8))
      else none,
    bass := if opts.detectBass then
      some (mkEvents sr "bass" (bassEnergySignal bandEnergies)
        (detectOnsets sr (bassFluxSignal bandFlux) opts.sensitivityBass
          opts.minIntervalBass 20))
      else none,
    melody := if opts.detectMelody then
      some (mkEvents sr "melody" (melodySignal sr spectrogram bandFlux)
        (detectOnsets sr (melodySignal sr spectrogram bandFlux)
          opts.sensitivityMelody opts.minIntervalMelody 15))
      else none,
    vocal := if opts.detectVocal then
      some (mkEvents sr "vocal" (computeVocalFlux sr sq spectrogram)
        (detectOnsets sr (computeVocalFlux sr sq spectrogram)
          opts.sensitivityVocal opts.minIntervalVocal 18))
      else none,
    bpm := estimateBPM sr (combineBands bandEnergies
      [.subBass, .bass, .lowMid, .highMid] [3/10, 2/10, 25/100, 25/100]) }

/-- A run whose cancellation flag is never set returns exactly
`analyzeResult`. -/
lemma analyze_constFalse (fm : List ℚ → List ℚ) (sq : ℚ → ℚ)
    (buffer : AudioBuffer) (opts : AnalysisOptions) :
    analyze fm sq buffer opts (fun _ => false) =
      some (analyzeResult fm sq buffer opts) := by
  obtain ⟨n, hn⟩ := computeSTFT_constFalse fm (mixToMono buffer) 2
  simp only [analyze, hn, Bool.false_eq_true, if_false, Bool.and_false,
    analyzeResult]

/-- Claim C10: calling `analyze` with an empty options object (all
defaults) yields a result with event-list entries for kick, snare, hihat,
bass and melody but no vocal entry at all: `detectVocal` defaults to
`false` while the other five detect flags default to `true`. -/
theorem analyze_defaultOptions_channels (fm : List ℚ → List ℚ)
    (sq : ℚ → ℚ) (buffer : AudioBuffer) :
    ∃ r, analyze fm sq buffer {} (fun _ => false) = some r ∧
      r.kick.isSome ∧ r.snare.isSome ∧ r.hihat.isSome ∧
      r.bass.isSome ∧ r.melody.isSome ∧ r.vocal = none := by
  refine ⟨analyzeResult fm sq buffer {}, analyze_constFalse fm sq buffer {}, ?_⟩
  simp [analyzeResult]

/-- Claim C8: two non-cancelled `analyze` runs that differ only in the
per-channel detect flags return the same `bpm`, computed from the fixed
cross-band mixture subBass 0.3, bass 0.2, lowMid 0.25, highMid 0.25;
`bpm` is an always-present field of every non-cancelled result. -/
theorem analyze_bpm_flagIndependent (fm : List ℚ → List ℚ) (sq : ℚ → ℚ)
    (buffer : AudioBuffer) (o : AnalysisOptions) (k s h b m v : Bool) :
    Option.map AnalysisResult.bpm
        (analyze fm sq buffer
          { o with
            detectKick := k
            detectSnare := s
            detectHihat := h
            detectBass := b
            detectMelody := m
            detectVocal := v }
          (fun _ => false)) =
      Option.map AnalysisResult.bpm
        (analyze fm sq buffer o (fun _ => false)) := by
  rw [analyze_constFalse, analyze_constFalse]
  rfl

/-- Claim C6: in every non-cancelled run with bass detection enabled, the
bass events' frames come from onset detection on the max-normalised flux
mixture (subBass flux 0.3 + bass flux 0.7) while each event's strength is
read from the separately max-normalised energy mixture (subBass energy
0.3 + bass energy 0.7) at that frame — two distinct signals. -/
theorem analyze_bassStrengthDecoupled (fm : List ℚ → List ℚ) (sq : ℚ → ℚ)
    (buffer : AudioBuffer) (opts : AnalysisOptions)
    (hb : opts.detectBass = true) :
    ∃ r, analyze fm sq buffer opts (fun _ => false) = some r ∧
      r.bass = some (mkEvents buffer.sampleRate "bass"
        (bassEnergySignal (extractBandEnergies buffer.sampleRate
          (stftSpec fm (mixToMono buffer))))
        (detectOnsets buffer.sampleRate
          (bassFluxSignal (computeBandFlux buffer.sampleRate sq
            (stftSpec fm (mixToMono buffer))))
          opts.sensitivityBass opts.minIntervalBass 20)) := by
  refine ⟨analyzeResult fm sq buffer opts,
    analyze_constFalse fm sq buffer opts, ?_⟩
  simp [analyzeResult, hb]

/-- Witness for C6 on a concrete short buffer with bass detection
enabled. -/
theorem analyze_bassStrengthDecoupled_witness :
    ({ detectBass := true } : AnalysisOptions).detectBass = true ∧
    (∃ r, analyze (fun _ => []) (fun _ => 0)
        { channelData := [[1, 0, -1]], sampleRate := 44100 }
        { detectBass := true } (fun _ => false) = some r ∧
      r.bass = some (mkEvents 44100 "bass"
        (bassEnergySignal (extractBandEnergies 44100
          (stftSpec (fun _ => []) (mixToMono
            { channelData := [[1, 0, -1]], sampleRate := 44100 }))))
        (detectOnsets 44100
          (bassFluxSignal (computeBandFlux 44100 (fun _ => 0)
            (stftSpec (fun _ => []) (mixToMono
              { channelData := [[1, 0, -1]], sampleRate := 44100 }))))
          (1/2) (15/100) 20))) :=
  ⟨rfl, analyze_bassStrengthDecoupled (fun _ => []) (fun _ => 0)
    { channelData := [[1, 0, -1]], sampleRate := 44100 }
    { detectBass := true } rfl⟩

/-- Claim C4 as amended: a cancellation flag that is already set when
`analyze` starts (read `true` by the very first poll) makes `analyze`
return the cancelled outcome `none`; a flag set later is only detected at
the polled checkpoints, and one set after the final executed poll (the
vocal and BPM stages poll nothing) can still yield a populated result —
see the counterexample. -/
theorem analyze_cancelledAtStart (fm : List ℚ → List ℚ) (sq : ℚ → ℚ)
    (buffer : AudioBuffer) (opts : AnalysisOptions) (flag : ℕ → Bool)
    (h : flag 0 = true) :
    analyze fm sq buffer opts flag = none := by
  simp only [analyze, h, if_true]

/-- Witness for the amended C4: a flag that is true from the start. -/
theorem analyze_cancelledAtStart_witness :
    (fun _ : ℕ => true) 0 = true ∧
    analyze (fun _ => []) (fun _ => 0)
      { channelData := [[0]], sampleRate := 44100 } {}
      (fun _ => true) = none :=
  ⟨rfl, analyze_cancelledAtStart (fun _ => []) (fun _ => 0)
    { channelData := [[0]], sampleRate := 44100 } {} (fun _ => true) rfl⟩

/-- A 100-sample silent buffer (shorter than one FFT frame). -/
def cexBuffer : AudioBuffer :=
  { channelData := [List.replicate 100 0], sampleRate := 44100 }

/-- Options enabling only the vocal channel (whose block has no
cancellation poll in the source). -/
def cexVocalOpts : AnalysisOptions :=
  { detectKick := false, detectSnare := false, detectHihat := false,
    detectBass := false, detectMelody := false, detectVocal := true }

/-- A monotone cancellation history that is false at polls 0–4 and becomes
true from index 5 on: with `cexVocalOpts` and a sub-frame buffer the run
executes exactly polls 0–4 (mono, pre-STFT, post-STFT, band energies,
band flux; no STFT-loop polls since the spectrogram is empty, and no
channel polls since only vocal — pollless in the source — is enabled), so
index 5 corresponds to the flag being set during the vocal/BPM stages,
before `analyze` returns. -/
def cexLateFlag : ℕ → Bool := fun i => decide (5 ≤ i)

/-- Claim C4, counterexample: the cancellation flag is still false at the
last executed poll (index 4) and set from index 5 — i.e. during the run,
after the final checkpoint — yet `analyze` returns a populated result,
not the cancelled outcome. -/
theorem analyze_lateCancel_populated_cex :
    cexLateFlag 4 = false ∧ cexLateFlag 5 = true ∧
    (analyze (fun _ => []) (fun _ => 0) cexBuffer cexVocalOpts
      cexLateFlag).isSome = true := by
  refine ⟨rfl, rfl, ?_⟩
  rfl

/-! ### Degenerate inputs (claim C3) -/

/-- A buffer shorter than one FFT frame yields a nonpositive frame count
(`Math.floor` of a negative quotient, plus one). -/
lemma numFramesOf_toNat_eq_zero {len : ℕ} (h : len < 2048) :
    (numFramesOf len).toNat = 0 := by
  unfold numFramesOf
  have ha : (len : ℤ) - (fftSize : ℤ) < 0 := by
    simp only [fftSize]
    push_cast
    omega
  have hd : ((len : ℤ) - (fftSize : ℤ)).fdiv (hopSize : ℤ) < 0 := by
    generalize (len : ℤ) - (fftSize : ℤ) = a at ha
    cases a with
    | ofNat m =>
      exfalso
      have : (0 : ℤ) ≤ Int.ofNat m := Int.ofNat_nonneg m
      omega
    | negSucc m =>
      have h2 : (Int.negSucc m).fdiv (hopSize : ℤ) = Int.negSucc (m / 512) := rfl
      rw [h2]
      exact Int.negSucc_lt_zero _
  omega

/-- A buffer shorter than one FFT frame yields the empty spectrogram. -/
lemma stftSpec_short {fm : List ℚ → List ℚ} {samples : List ℚ}
    (h : samples.length < 2048) : stftSpec fm samples = [] := by
  unfold stftSpec
  rw [numFramesOf_toNat_eq_zero h]
  rfl

/-- Frames read out of an all-zero spectrogram are all-zero. -/
lemma getD_frame_all_zero {spec : List (List ℚ)}
    (h : ∀ fr ∈ spec, ∀ x ∈ fr, x = 0) (i : ℕ) :
    ∀ x ∈ spec.getD i [], x = 0 := by
  rw [List.getD_eq_getElem?_getD]
  cases hg : spec[i]? with
  | none => intro x hx; exact absurd hx (List.not_mem_nil x)
  | some fr =>
    intro x hx
    exact h fr (List.getElem?_mem hg) x hx

/-- Band energy of an all-zero frame is zero. -/
lemma bandEnergyFrame_all_zero {frame : List ℚ} (h : ∀ x ∈ frame, x = 0)
    (lo hi : ℕ) : bandEnergyFrame lo hi frame = 0 := by
  unfold bandEnergyFrame binSum
  rw [List.sum_eq_zero, zero_div]
  intro x hx
  obtain ⟨b, _, rfl⟩ := List.mem_map.mp hx
  rw [getD_zero_of_all h]
  norm_num

/-- All band-energy series of an all-zero spectrogram are all-zero. -/
lemma extractBandEnergies_all_zero {sr : ℕ} {spec : List (List ℚ)}
    (h : ∀ fr ∈ spec, ∀ x ∈ fr, x = 0) :
    ∀ n, ∀ v ∈ (extractBandEnergies sr spec).get n, v = 0 := by
  intro n v hv
  rw [extractBandEnergies, BandMap.get_ofFun] at hv
  obtain ⟨fr, hfr, rfl⟩ := List.mem_map.mp hv
  exact bandEnergyFrame_all_zero (h fr hfr) _ _

/-- All band-flux series of an all-zero spectrogram are all-zero, given
that the square root fixes 0 (as `Math.sqrt(0) = 0` does). -/
lemma computeBandFlux_all_zero {sr : ℕ} {sq : ℚ → ℚ} {spec : List (List ℚ)}
    (h : ∀ fr ∈ spec, ∀ x ∈ fr, x = 0) (hsq0 : sq 0 = 0) :
    ∀ n, ∀ v ∈ (computeBandFlux sr sq spec).get n, v = 0 := by
  intro n v hv
  rw [computeBandFlux, BandMap.get_ofFun] at hv
  unfold fluxSeries at hv
  obtain ⟨i, _, rfl⟩ := List.mem_map.mp hv
  by_cases h0 : i = 0
  · simp [h0]
  · simp only [h0, if_false]
    have hz : fluxSumFrame (bandLowBin sr n) (bandHighBin sr n)
        (spec.getD (i - 1) []) (spec.getD i []) = 0 := by
      unfold fluxSumFrame binSum
      apply List.sum_eq_zero
      intro x hx
      obtain ⟨b, _, rfl⟩ := List.mem_map.mp hx
      rw [getD_zero_of_all (getD_frame_all_zero h (i - 1)),
        getD_zero_of_all (getD_frame_all_zero h i)]
      norm_num
    rw [hz, hsq0]

/-- `maxNormalize` of an all-zero list has only zero members. -/
lemma maxNormalize_mem_zero {l : List ℚ} (h : ∀ c ∈ l, c = 0) :
    ∀ x ∈ maxNormalize l, x = 0 := by
  rw [maxNormalize_all_zero h]
  exact h

/-- `_combineBands` of all-zero series has only zero members (the
normalisation is skipped since the maximum is 0). -/
lemma combineBands_all_zero {bd : BandMap} {names : List BandName}
    {weights : List ℚ} (h : ∀ n ∈ names, ∀ v ∈ bd.get n, v = 0) :
    ∀ x ∈ combineBands bd names weights, x = 0 := by
  simp only [combineBands]
  apply maxNormalize_mem_zero
  intro c hc
  obtain ⟨j, _, rfl⟩ := List.mem_map.mp hc
  apply List.sum_eq_zero
  intro t ht
  obtain ⟨p, hp, rfl⟩ := List.mem_map.mp ht
  obtain ⟨hp1, _⟩ := List.of_mem_zip hp
  rw [getD_zero_of_all (h p.1 hp1), zero_mul]

/-- The HFC of an all-zero frame is zero. -/
lemma hfcFrame_all_zero {frame : List ℚ} (h : ∀ x ∈ frame, x = 0) :
    hfcFrame frame = 0 := by
  unfold hfcFrame
  rw [List.sum_eq_zero, zero_div]
  intro x hx
  obtain ⟨b, _, rfl⟩ := List.mem_map.mp hx
  rw [getD_zero_of_all h]
  norm_num

/-- `normalizeByMax` of an all-zero list has only zero members. -/
lemma normalizeByMax_mem_zero {l : List ℚ} (h : ∀ x ∈ l, x = 0) :
    ∀ x ∈ normalizeByMax l, x = 0 := by
  intro x hx
  rcases hmax : l.max? with _ | m
  · simp only [normalizeByMax, hmax] at hx
    exact h x hx
  · simp only [normalizeByMax, hmax] at hx
    obtain ⟨c, hc, rfl⟩ := List.mem_map.mp hx
    rw [h c hc, zero_div]

/-- The restricted centroid of an all-zero frame is zero. -/
lemma centroidRangeFrame_all_zero {frame : List ℚ} (h : ∀ x ∈ frame, x = 0)
    (lo hi : ℕ) : centroidRangeFrame lo hi frame = 0 := by
  simp only [centroidRangeFrame]
  have hz : binSumBounded lo (min (hi + 1) frame.length)
      (fun b => frame.getD b 0 * frame.getD b 0) = 0 := by
    unfold binSumBounded
    apply List.sum_eq_zero
    intro x hx
    obtain ⟨b, _, rfl⟩ := List.mem_map.mp hx
    rw [getD_zero_of_all h]
    norm_num
  rw [hz]
  norm_num

/-- The centroid-flux series of an all-zero spectrogram has only zero
members. -/
lemma centroidFlux_all_zero {sr : ℕ} {spec : List (List ℚ)}
    (h : ∀ fr ∈ spec, ∀ x ∈ fr, x = 0) :
    ∀ x ∈ computeCentroidFlux sr spec, x = 0 := by
  unfold computeCentroidFlux
  apply normalizeByMax_mem_zero
  intro x hx
  obtain ⟨i, _, rfl⟩ := List.mem_map.mp hx
  by_cases h0 : i = 0
  · simp [h0]
  · simp only [h0, if_false]
    have hc : ∀ j, (spec.map (centroidRangeFrame (binForFreq sr 300)
        (binForFreq sr 6000))).getD j 0 = 0 := by
      intro j
      apply getD_zero_of_all
      intro v hv
      obtain ⟨fr, hfr, rfl⟩ := List.mem_map.mp hv
      exact centroidRangeFrame_all_zero (h fr hfr) _ _
    rw [hc i, hc (i - 1)]
    norm_num

/-- The vocal-flux series of an all-zero spectrogram has only zero
members, given that the square root fixes 0. -/
lemma vocalFlux_all_zero {sr : ℕ} {sq : ℚ → ℚ} {spec : List (List ℚ)}
    (h : ∀ fr ∈ spec, ∀ x ∈ fr, x = 0) (hsq0 : sq 0 = 0) :
    ∀ x ∈ computeVocalFlux sr sq spec, x = 0 := by
  unfold computeVocalFlux
  apply normalizeByMax_mem_zero
  intro x hx
  obtain ⟨i, _, rfl⟩ := List.mem_map.mp hx
  by_cases h0 : i = 0
  · simp [h0]
  · simp only [h0, if_false]
    have hz : binSumBounded (binForFreq sr 300)
        (min (binForFreq sr 4000 + 1) (spec.getD i []).length)
        (fun b =>
          let d := (spec.getD i []).getD b 0 - (spec.getD (i - 1) []).getD b 0
          if 0 < d then d * d else 0) = 0 := by
      unfold binSumBounded
      apply List.sum_eq_zero
      intro x hx
      obtain ⟨b, _, rfl⟩ := List.mem_map.mp hx
      rw [getD_zero_of_all (getD_frame_all_zero h i),
        getD_zero_of_all (getD_frame_all_zero h (i - 1))]
      norm_num
    rw [hz, hsq0]

/-- `_detectOnsets` returns no onsets on an all-zero (or empty) signal:
the ODF is identically zero and never exceeds the `ε = 0.001` floor of the
adaptive threshold. -/
lemma detectOnsets_all_zero {sr : ℕ} {sig : List ℚ}
    (h : ∀ x ∈ sig, x = 0) (sens minI : ℚ) (w : ℕ) :
    detectOnsets sr sig sens minI w = [] := by
  have hodf := odfOf_all_zero h
  have hcand : ∀ i, isCand (odfOf sig) (thresholdMult sens) w i = false := by
    intro i
    unfold isCand
    have h1 : localMeanAt (odfOf sig) w i = 0 := by
      unfold localMeanAt binSum
      rw [List.sum_eq_zero, zero_div]
      intro x hx
      obtain ⟨b, _, rfl⟩ := List.mem_map.mp hx
      exact getD_zero_of_all hodf b
    rw [h1, getD_zero_of_all hodf, zero_mul, zero_add]
    rw [decide_eq_false (by norm_num : ¬ ((1:ℚ)/1000 < 0))]
    rw [Bool.false_and, Bool.false_and]
  simp only [detectOnsets]
  have hfold : ∀ (is : List ℕ) (acc : List ℕ),
      is.foldl (onsetStep (odfOf sig) (minGapFrames sr minI)
        (thresholdMult sens) w) acc = acc := by
    intro is
    induction is with
    | nil => intro acc; rfl
    | cons j rest ih =>
      intro acc
      rw [List.foldl_cons]
      have hstep : onsetStep (odfOf sig) (minGapFrames sr minI)
          (thresholdMult sens) w acc j = acc := by
        unfold onsetStep
        rw [hcand j]
        simp
      rw [hstep]
      exact ih acc
  rw [hfold]
  rfl

/-- The octave-folded, rounded BPM value derived from `minLag` at the
default sample rate 44100: `60 / (25 · 512 / 44100) = 206.71875`, halved
once to `103.359375`, rounded to `103.4 = 517/5`. -/
lemma fallbackBPM_44100 :
    (jsRound (doubleWhileLT (halveWhileGT
      (60 / ((minLagOf 44100 : ℚ) * (hopSize : ℚ) / ((44100 : ℕ) : ℚ)))) * 10) : ℚ) / 10
      = 517/5 := by
  rw [minLagOf_44100]
  have hv : (60 : ℚ) / (((25 : ℕ) : ℚ) * (hopSize : ℚ) / ((44100 : ℕ) : ℚ)) =
      6615/32 := by
    norm_num [hopSize]
  rw [hv]
  rw [halveWhileGT_of_gt _ (by norm_num)]
  have h2 : (6615 : ℚ)/32/2 = 6615/64 := by norm_num
  rw [h2, halveWhileGT_of_le _ (by norm_num),
    doubleWhileLT_of_ge _ (by norm_num)]
  have h3 : jsRound ((6615 : ℚ)/64 * 10) = 1034 := by
    unfold jsRound
    exact Int.floor_eq_iff.mpr ⟨by norm_num, by norm_num⟩
  rw [h3]
  norm_num

set_option maxHeartbeats 1000000 in
/-- Claim C3 as amended: for a buffer shorter than one FFT frame (empty
spectrogram), and likewise for an all-zero (silent) buffer, `analyze`
completes without a fault: every enabled channel's event list is empty
and the returned `bpm` is the deterministic fallback derived from
`minLag = floor(60/200 · sampleRate / hopSize)`, which at 44100 Hz with
hop 512 is `103.4` (= 517/5) — not "approximately 181.4" as the spec
documents.  The silent branch assumes the real transform's facts that the
windowed FFT magnitude of a zero frame is the zero frame and that the
square root fixes 0. -/
theorem analyze_degenerateInput (fm : List ℚ → List ℚ) (sq : ℚ → ℚ)
    (buffer : AudioBuffer) (opts : AnalysisOptions)
    (hsr : buffer.sampleRate = 44100)
    (hdeg : (mixToMono buffer).length < 2048 ∨
      ((∀ x ∈ mixToMono buffer, x = 0) ∧
        fm (List.replicate 2048 0) = List.replicate 1024 0 ∧ sq 0 = 0)) :
    ∃ r, analyze fm sq buffer opts (fun _ => false) = some r ∧
      (opts.detectKick = true → r.kick = some []) ∧
      (opts.detectSnare = true → r.snare = some []) ∧
      (opts.detectHihat = true → r.hihat = some []) ∧
      (opts.detectBass = true → r.bass = some []) ∧
      (opts.detectMelody = true → r.melody = some []) ∧
      (opts.detectVocal = true → r.vocal = some []) ∧
      r.bpm = 517/5 := by
  refine ⟨analyzeResult fm sq buffer opts,
    analyze_constFalse fm sq buffer opts, ?_⟩
  have hE : ∀ n, ∀ v ∈ (extractBandEnergies 44100
      (stftSpec fm (mixToMono buffer))).get n, v = 0 := by
    rcases hdeg with hshort | ⟨hz, hfm, hsq0⟩
    · rw [stftSpec_short hshort]
      exact extractBandEnergies_all_zero (by intro fr hfr; cases hfr)
    · apply extractBandEnergies_all_zero
      intro fr hfr
      unfold stftSpec at hfr
      obtain ⟨f, _, rfl⟩ := List.mem_map.mp hfr
      unfold stftFrame
      have hslice : sliceAt (mixToMono buffer) (f * hopSize) =
          List.replicate 2048 0 := by
        apply List.eq_replicate_iff.mpr
        constructor
        · rw [sliceAt, List.length_map, List.length_range]
          rfl
        · intro x hx
          obtain ⟨j, _, rfl⟩ := List.mem_map.mp hx
          exact getD_zero_of_all hz _
      rw [hslice, hfm]
      intro x hx
      exact List.eq_of_mem_replicate hx
  have hallz : (mixToMono buffer).length < 2048 ∨
      (∀ fr ∈ stftSpec fm (mixToMono buffer), ∀ x ∈ fr, x = 0) ∧ sq 0 = 0 := by
    rcases hdeg with hshort | ⟨hz, hfm, hsq0⟩
    · exact Or.inl hshort
    · refine Or.inr ⟨?_, hsq0⟩
      intro fr hfr
      unfold stftSpec at hfr
      obtain ⟨f, _, rfl⟩ := List.mem_map.mp hfr
      unfold stftFrame
      have hslice : sliceAt (mixToMono buffer) (f * hopSize) =
          List.replicate 2048 0 := by
        apply List.eq_replicate_iff.mpr
        constructor
        · rw [sliceAt, List.length_map, List.length_range]
          rfl
        · intro x hx
          obtain ⟨j, _, rfl⟩ := List.mem_map.mp hx
          exact getD_zero_of_all hz _
      rw [hslice, hfm]
      intro x hx
      exact List.eq_of_mem_replicate hx
  have hF : ∀ n, ∀ v ∈ (computeBandFlux 44100 sq
      (stftSpec fm (mixToMono buffer))).get n, v = 0 := by
    rcases hallz with hshort | ⟨hz, hsq0⟩
    · rw [stftSpec_short hshort]
      intro n v hv
      rw [computeBandFlux, BandMap.get_ofFun] at hv
      exact absurd hv (by simp [fluxSeries])
    · exact computeBandFlux_all_zero hz hsq0
  have hV : ∀ x ∈ computeVocalFlux 44100 sq
      (stftSpec fm (mixToMono buffer)), x = 0 := by
    rcases hallz with hshort | ⟨hz, hsq0⟩
    · rw [stftSpec_short hshort]
      intro x hx
      exact absurd hx (by simp [computeVocalFlux, normalizeByMax])
    · exact vocalFlux_all_zero hz hsq0
  have hCF : ∀ x ∈ computeCentroidFlux 44100
      (stftSpec fm (mixToMono buffer)), x = 0 := by
    rcases hallz with hshort | ⟨hz, _⟩
    · rw [stftSpec_short hshort]
      intro x hx
      exact absurd hx (by simp [computeCentroidFlux, normalizeByMax])
    · exact centroidFlux_all_zero hz
  have hHFC : ∀ v ∈ computeHFC (stftSpec fm (mixToMono buffer)), v = 0 := by
    rcases hallz with hshort | ⟨hz, _⟩
    · rw [stftSpec_short hshort]
      intro v hv
      exact absurd hv (List.not_mem_nil v)
    · intro v hv
      obtain ⟨fr, hfr, rfl⟩ := List.mem_map.mp hv
      exact hfcFrame_all_zero (hz fr hfr)
  have hkick : ∀ x ∈ kickSignal (extractBandEnergies 44100
      (stftSpec fm (mixToMono buffer))), x = 0 :=
    combineBands_all_zero (fun n _ => hE n)
  have hsnare : ∀ x ∈ snareSignal sq (stftSpec fm (mixToMono buffer))
      (extractBandEnergies 44100 (stftSpec fm (mixToMono buffer))), x = 0 := by
    intro x hx
    unfold snareSignal at hx
    obtain ⟨p, hp, rfl⟩ := List.mem_map.mp hx
    rw [combineBands_all_zero (fun n _ => hE n) p.2 (snd_mem_of_mem_enum hp),
      zero_mul]
  have hhihat : ∀ x ∈ hihatSignal (stftSpec fm (mixToMono buffer))
      (extractBandEnergies 44100 (stftSpec fm (mixToMono buffer))), x = 0 := by
    intro x hx
    unfold hihatSignal at hx
    obtain ⟨p, hp, rfl⟩ := List.mem_map.mp hx
    rw [combineBands_all_zero (fun n _ => hE n) p.2 (snd_mem_of_mem_enum hp),
      getD_zero_of_all hHFC, zero_mul, zero_mul, add_zero]
  have hbassdet : ∀ x ∈ bassFluxSignal (computeBandFlux 44100 sq
      (stftSpec fm (mixToMono buffer))), x = 0 :=
    combineBands_all_zero (fun n _ => hF n)
  have hmelody : ∀ x ∈ melodySignal 44100 (stftSpec fm (mixToMono buffer))
      (computeBandFlux 44100 sq (stftSpec fm (mixToMono buffer))), x = 0 := by
    intro x hx
    unfold melodySignal at hx
    obtain ⟨p, hp, rfl⟩ := List.mem_map.mp hx
    rw [combineBands_all_zero (fun n _ => hF n) p.2 (snd_mem_of_mem_enum hp),
      getD_zero_of_all hCF, zero_mul, zero_mul, add_zero]
  have hbpmsig : ∀ x ∈ combineBands (extractBandEnergies 44100
      (stftSpec fm (mixToMono buffer)))
      [.subBass, .bass, .lowMid, .highMid] [3/10, 2/10, 25/100, 25/100],
      x = 0 :=
    combineBands_all_zero (fun n _ => hE n)
  simp only [analyzeResult, hsr]
  refine ⟨?_, ?_, ?_, ?_, ?_, ?_, ?_⟩
  · intro hk
    rw [if_pos hk, detectOnsets_all_zero hkick]
    rfl
  · intro hk
    rw [if_pos hk, detectOnsets_all_zero hsnare]
    rfl
  · intro hk
    rw [if_pos hk, detectOnsets_all_zero hhihat]
    rfl
  · intro hk
    rw [if_pos hk, detectOnsets_all_zero hbassdet]
    rfl
  · intro hk
    rw [if_pos hk, detectOnsets_all_zero hmelody]
    rfl
  · intro hk
    rw [if_pos hk, detectOnsets_all_zero hV]
    rfl
  · rw [estimateBPM_all_zero 44100 _ hbpmsig]
    exact fallbackBPM_44100

/-- Witness for the amended C3: the 100-sample silent buffer at 44100 Hz
with all default options. -/
theorem analyze_degenerateInput_witness :
    cexBuffer.sampleRate = 44100 ∧
    (mixToMono cexBuffer).length < 2048 ∧
    (∃ r, analyze (fun _ => []) (fun _ => 0) cexBuffer {}
        (fun _ => false) = some r ∧
      (({} : AnalysisOptions).detectKick = true → r.kick = some []) ∧
      (({} : AnalysisOptions).detectSnare = true → r.snare = some []) ∧
      (({} : AnalysisOptions).detectHihat = true → r.hihat = some []) ∧
      (({} : AnalysisOptions).detectBass = true → r.bass = some []) ∧
      (({} : AnalysisOptions).detectMelody = true → r.melody = some []) ∧
      (({} : AnalysisOptions).detectVocal = true → r.vocal = some []) ∧
      r.bpm = 517/5) :=
  ⟨rfl, by decide,
    analyze_degenerateInput (fun _ => []) (fun _ => 0) cexBuffer {} rfl
      (Or.inl (by decide))⟩

/-- Claim C3, counterexample: on a sub-frame silent buffer at 44100 Hz
the fallback BPM `analyze` returns is exactly 103.4, which is not within
1 BPM of the "approximately 181.4" the spec documents for this case (the
spec's number does not match the `minLag = 25` fallback
`60/(25·512/44100) = 206.71875 → 103.4`). -/
theorem analyze_fallbackBPM_cex :
    Option.map AnalysisResult.bpm (analyze (fun _ => []) (fun _ => 0)
      cexBuffer {} (fun _ => false)) = some (517/5) ∧
    ¬ |(517 : ℚ)/5 - 1814/10| ≤ 1 := by
  constructor
  · rw [analyze_constFalse]
    have hspec : stftSpec (fun _ => ([] : List ℚ)) (mixToMono cexBuffer) = [] :=
      stftSpec_short (by decide)
    simp only [Option.map_some', analyzeResult, hspec]
    have hsig : ∀ x ∈ combineBands
        (extractBandEnergies cexBuffer.sampleRate ([] : List (List ℚ)))
        [.subBass, .bass, .lowMid, .highMid] [3/10, 2/10, 25/100, 25/100],
        x = 0 := by
      exact combineBands_all_zero (fun n _ =>
        extractBandEnergies_all_zero
          (fun fr hfr => absurd hfr (List.not_mem_nil fr)) n)
    rw [estimateBPM_all_zero _ _ hsig]
    have h44 : cexBuffer.sampleRate = 44100 := rfl
    rw [h44, fallbackBPM_44100]
  · have habs : |(517 : ℚ)/5 - 1814/10| = 78 := by
      rw [abs_of_nonpos (by norm_num)]
      norm_num
    rw [habs]
    norm_num

end BeatMarker
